import Mathlib

/-!
Verification development for the SentinelServer_AI inspection pipeline.

The Python sources are shallowly embedded: prompts are lists of characters
(`Str`), entity spans are natural-number character offsets, attachment
payloads are byte lists (the base64 wire encoding is kept at the JSON
boundary, as the design notes prescribe), and the regex engine, the number
normalizer, the OCR engine, the local LLM and the wall clock are oracle
parameters, so every theorem quantifies over their behaviour.
-/

namespace Sentinel

/-- Texts are sequences of characters; offsets count characters, matching the
Python `str` slicing model used by the pipeline. -/
abbrev Str := List Char

/-- Coerce a Lean string literal to the character-list model. -/
def str (s : String) : Str := s.data

/-- Python `s[b:e]` (half-open, clamping at both ends). -/
def slice (s : Str) (b e : Nat) : Str := (s.take e).drop b

/-- Python `str.strip()`: drop leading and trailing whitespace. -/
def trim (s : Str) : Str :=
  ((s.dropWhile Char.isWhitespace).reverse.dropWhile Char.isWhitespace).reverse

/-- Python `str.upper()` (ASCII model). -/
def upper (s : Str) : Str := s.map Char.toUpper

/-- Python `str.lower()` (ASCII model). -/
def lower (s : Str) : Str := s.map Char.toLower

/-- Helper for `findFrom`: first index `i` in `[i0, i0+fuel)` such that `sub`
occurs at `i` in `s`. -/
def findFromAux (s sub : Str) : Nat → Nat → Option Nat
  | _, 0 => none
  | i, fuel + 1 =>
    if sub.isPrefixOf (s.drop i) then some i else findFromAux s sub (i + 1) fuel

/-- Python `s.find(sub, start)` returning `none` instead of `-1`. -/
def findFrom (s sub : Str) (start : Nat) : Option Nat :=
  if start ≤ s.length then findFromAux s sub start (s.length + 1 - start) else none

/-- Python `sub in s`. -/
def isSubstrOf (sub s : Str) : Bool := (findFrom s sub 0).isSome

/-- Boolean test that `v` occurs in `s` at position `p`. -/
def occAt (s v : Str) (p : Nat) : Bool := v.isPrefixOf (s.drop p)

/-- First-match association-list lookup (Python `dict.get(k)`). -/
def alookup {β : Type} (l : List (Str × β)) (k : Str) : Option β :=
  match l with
  | [] => none
  | (k', v) :: rest => if k = k' then some v else alookup rest k

/-- Python `dict.get(k, d)`. -/
def alookupD {β : Type} (l : List (Str × β)) (k : Str) (d : β) : β :=
  (alookup l k).getD d

/-- Stable insertion of `x` before the first element `y` with `le x y`;
together with `sSort` this mirrors Python's stable `sorted`. -/
def sInsert {α : Type} (le : α → α → Bool) (x : α) : List α → List α
  | [] => [x]
  | y :: ys => if le x y then x :: y :: ys else y :: sInsert le x ys

/-- Stable sort by a boolean `≤`-style comparator (Python `sorted`). -/
def sSort {α : Type} (le : α → α → Bool) : List α → List α
  | [] => []
  | x :: xs => sInsert le x (sSort le xs)

/-- Span overlap test of the sources: `not (en <= tb or te <= b)` for a
candidate `(b, en)` against a taken `(tb, te)`. -/
def overlapB (c t : Nat × Nat) : Bool :=
  !(decide (c.2 ≤ t.1) || decide (t.2 ≤ c.1))

/-- Greedy non-overlap selection loop shared by `regex_detector.detect_entities`
and `masking._merge_and_sort`: keep a candidate iff it overlaps nothing
accepted so far. -/
def selGo {α : Type} (sp : α → Nat × Nat) (acc : List α) : List α → List α
  | [] => acc
  | r :: rs =>
    if acc.any (fun t => overlapB (sp r) (sp t)) then selGo sp acc rs
    else selGo sp (acc ++ [r]) rs

/-- An accepted entity: `schemas.Entity` (label, value, begin, end). `end` is a
Lean keyword, hence the trailing underscores. -/
structure Ent where
  label : Str
  value : Str
  begin_ : Nat
  end_ : Nat
deriving DecidableEq, Repr

end Sentinel

namespace Sentinel

/-! ## services/masking.py -/

/-- The `TOKEN` label-to-token table of `services/masking.py`. -/
def TOKEN : List (Str × Str) :=
  [ (str "NAME", str "NAME"), (str "PHONE", str "PHONE"),
    (str "EMAIL", str "EMAIL"), (str "ADDRESS", str "ADDRESS"),
    (str "POSTAL_CODE", str "POSTAL_CODE"),
    (str "PERSONAL_CUSTOMS_ID", str "PERSONAL_CUSTOMS_ID"),
    (str "RESIDENT_ID", str "RESIDENT_ID"), (str "PASSPORT", str "PASSPORT"),
    (str "DRIVER_LICENSE", str "DRIVER_LICENSE"),
    (str "FOREIGNER_ID", str "FOREIGNER_ID"),
    (str "HEALTH_INSURANCE_ID", str "HEALTH_INSURANCE_ID"),
    (str "BUSINESS_ID", str "BUSINESS_ID"), (str "MILITARY_ID", str "MILITARY_ID"),
    (str "JWT", str "JWT"), (str "API_KEY", str "API_KEY"),
    (str "GITHUB_PAT", str "GITHUB_PAT"), (str "PRIVATE_KEY", str "PRIVATE_KEY"),
    (str "CARD_NUMBER", str "CARD_NUMBER"), (str "CARD_EXPIRY", str "CARD_EXPIRY"),
    (str "BANK_ACCOUNT", str "BANK_ACCOUNT"), (str "CARD_CVV", str "CARD_CVV"),
    (str "PAYMENT_PIN", str "PAYMENT_PIN"),
    (str "MOBILE_PAYMENT_PIN", str "MOBILE_PAYMENT_PIN"),
    (str "MNEMONIC", str "MNEMONIC"),
    (str "CRYPTO_PRIVATE_KEY", str "CRYPTO_PRIVATE_KEY"),
    (str "HD_WALLET", str "HD_WALLET"), (str "PAYMENT_URI_QR", str "PAYMENT_URI_QR"),
    (str "IPV4", str "IPV4"), (str "IPV6", str "IPV6"),
    (str "MAC_ADDRESS", str "MAC_ADDRESS"), (str "IMEI", str "IMEI"),
    (str "ORDER_ID", str "ORDER_ID"), (str "PASSWORD", str "PASSWORD"),
    (str "USERNAME", str "USERNAME"), (str "CARD_NO", str "CARD_NUMBER") ]

/-- `masking._norm_label`: uppercase of the stripped label. -/
def norm_label (e : Ent) : Str := upper (trim e.label)

/-- `masking._token_for`. -/
def token_for (label : Str) : Str :=
  let lab := upper label
  match alookup TOKEN lab with
  | some t => t
  | none => if lab = [] then str "SENSITIVE" else lab

/-- One replacement range of the masker: span plus replacement token. -/
structure Rng where
  b : Nat
  e : Nat
  tok : Str
deriving DecidableEq, Repr

/-- `masking._collect_ranges_by_offset`: anchored entity ranges with
`0 ≤ begin < end ≤ len(original)`. -/
def collect_ranges_by_offset (original : Str) (entities : List Ent) : List Rng :=
  entities.filterMap fun e =>
    if decide (e.begin_ < e.end_) && decide (e.end_ ≤ original.length) then
      some ⟨e.begin_, e.end_, token_for (norm_label e)⟩
    else none

/-- Mark positions `[b, e)` in the taken array (`taken[i] = True`). -/
def markRange (t : List Bool) (b e : Nat) : List Bool :=
  ((List.range t.length).zip t).map fun p =>
    p.2 || (decide (b ≤ p.1) && decide (p.1 < e))

/-- Python `any(taken[b:e])`. -/
def anyRange (t : List Bool) (b e : Nat) : Bool := ((t.take e).drop b).any id

/-- Helper for `occurrences`: `re.finditer` of a literal pattern yields
non-overlapping occurrences scanning left to right. -/
def occsGo (s v : Str) (cursor : Nat) : Nat → List (Nat × Nat)
  | 0 => []
  | fuel + 1 =>
    match findFrom s v cursor with
    | none => []
    | some i => (i, i + v.length) :: occsGo s v (i + v.length) fuel

/-- All `re.finditer(re.escape(v), s)` match spans. -/
def occurrences (s v : Str) : List (Nat × Nat) :=
  if v = [] then [] else occsGo s v 0 (s.length + 1)

/-- Inner loop of `masking._collect_ranges_by_value` over the occurrences of a
single value: skip an occurrence that touches a taken position, otherwise mark
it and emit a range. -/
def takeOcc (tok : Str) (taken : List Bool) :
    List (Nat × Nat) → List Bool × List Rng
  | [] => (taken, [])
  | (b, e) :: rest =>
    if anyRange taken b e then takeOcc tok taken rest
    else
      let res := takeOcc tok (markRange taken b e) rest
      (res.1, ⟨b, e, tok⟩ :: res.2)

/-- Entity loop of `masking._collect_ranges_by_value`. -/
def cvGo (original : Str) (taken : List Bool) : List Ent → List Rng
  | [] => []
  | e :: es =>
    if e.value = [] then cvGo original taken es
    else
      let res := takeOcc (token_for (norm_label e)) taken (occurrences original e.value)
      res.2 ++ cvGo original res.1 es

/-- `masking._collect_ranges_by_value`. -/
def collect_ranges_by_value (original : Str) (entities : List Ent) : List Rng :=
  cvGo original (List.replicate (original.length + 1) false) entities

/-- Comparator for Python key `(begin asc, length desc)`, as a stable `≤`. -/
def rngAscLe (x y : Rng) : Bool :=
  decide (x.b < y.b) || (decide (x.b = y.b) && decide (y.e - y.b ≤ x.e - x.b))

/-- Comparator for the final `sort(key=start, reverse=True)`. -/
def rngDescLe (x y : Rng) : Bool := decide (y.b ≤ x.b)

/-- Span of a replacement range. -/
def rngSpan (r : Rng) : Nat × Nat := (r.b, r.e)

/-- `masking._merge_and_sort`: stable sort by `(begin asc, length desc)`,
greedy non-overlap selection, then sort descending by start. -/
def merge_and_sort (ranges : List Rng) : List Rng :=
  if ranges = [] then []
  else sSort rngDescLe (selGo rngSpan [] (sSort rngAscLe ranges))

/-- The replacement text for one range: the bare token, or `(TOKEN)`. -/
def rep (parens : Bool) (r : Rng) : Str :=
  if parens then str "(" ++ r.tok ++ str ")" else r.tok

/-- One replacement step of `masking._apply_ranges`. -/
def apply1 (parens : Bool) (s : Str) (r : Rng) : Str :=
  s.take r.b ++ rep parens r ++ s.drop r.e

/-- `masking._apply_ranges` (ranges are already sorted back-to-front). -/
def apply_ranges (s : Str) (ranges : List Rng) (parens : Bool) : Str :=
  match ranges with
  | [] => s
  | r :: rest => apply_ranges (apply1 parens s r) rest parens

/-- Candidate list assembled by `masking._prepare_ranges` before overlap
resolution: anchored ranges first, value-occurrence ranges appended (the
value pass runs in both branches of the source). -/
def prepareCands (original : Str) (entities : List Ent) : List Rng :=
  if original = [] ∨ entities = [] then []
  else
    let ranges := collect_ranges_by_offset original entities
    if ranges = [] then collect_ranges_by_value original entities
    else ranges ++ collect_ranges_by_value original entities

/-- `masking._prepare_ranges`. -/
def prepare_ranges (original : Str) (entities : List Ent) : List Rng :=
  if original = [] ∨ entities = [] then []
  else merge_and_sort (prepareCands original entities)

/-- `masking.mask_by_entities`. -/
def mask_by_entities (original : Str) (entities : List Ent) : Str :=
  let ranges := prepare_ranges original entities
  if ranges = [] then original else apply_ranges original ranges false

/-- `masking.mask_with_parens_by_entities`. -/
def mask_with_parens_by_entities (original : Str) (entities : List Ent) : Str :=
  let ranges := prepare_ranges original entities
  if ranges = [] then original else apply_ranges original ranges true

end Sentinel

namespace Sentinel

/-! ## services/regex_detector.py

The pattern table `PATTERNS` lives in `services/regex_rules.py`, which is not
part of the sources at hand; the regex engine's per-text match list is
therefore an oracle (`cands`).  A match contributes its span; its value is the
matched slice of the text, which is what `m.group(...)`/`m.span(...)` return
for both the EMAIL capture-group path and the default path. -/

/-- One raw regex match: label and half-open character span. -/
structure RawMatch where
  label : Str
  b : Nat
  e : Nat
deriving DecidableEq, Repr

/-- `regex_detector._luhn_ok`. -/
def luhn_ok (s : Str) : Bool :=
  let digits := s.filter Char.isDigit
  if digits = [] then false
  else
    let res := digits.reverse.foldl
      (fun (acc : Nat × Bool) ch =>
        let d := ch.toNat - 48
        let d := if acc.2 then (if d > 4 then d * 2 - 9 else d * 2) else d
        (acc.1 + d, !acc.2)) (0, false)
    decide (res.1 % 10 = 0)

/-- `regex_detector._is_imei`. -/
def is_imei (s : Str) : Bool :=
  decide ((s.filter Char.isDigit).length = 15) && luhn_ok s

/-- `regex_detector._is_card_pan`. -/
def is_card_pan (s : Str) : Bool :=
  let n := (s.filter Char.isDigit).length
  decide (13 ≤ n) && decide (n ≤ 19) && luhn_ok s

/-- Comparator for the detector's `(begin asc, length desc)` sort. -/
def entAscLe (x y : Ent) : Bool :=
  decide (x.begin_ < y.begin_) ||
    (decide (x.begin_ = y.begin_) &&
      decide (y.end_ - y.begin_ ≤ x.end_ - x.begin_))

/-- Span of an entity. -/
def entSpan (e : Ent) : Nat × Nat := (e.begin_, e.end_)

/-- `regex_detector.detect_entities` over the oracle match list: Luhn
post-validation for `CARD_NUMBER`/`IMEI`, stable `(begin asc, length desc)`
sort, then label-agnostic greedy non-overlap selection. -/
def detect_entities (text : Str) (cands : List RawMatch) : List Ent :=
  if text = [] then []
  else
    let found := cands.filterMap fun m =>
      let val := slice text m.b m.e
      if m.label = str "CARD_NUMBER" && !(is_card_pan val) then none
      else if m.label = str "IMEI" && !(is_imei val) then none
      else some (⟨m.label, val, m.b, m.e⟩ : Ent)
    if found = [] then []
    else selGo entSpan [] (sSort entAscLe found)

/-! ## services/db_logging.py — span utilities -/

/-- `db_logging._merge_raw_and_norm_drop_overlap`: keep `raw`, append each
`norm` entity with a non-degenerate span that overlaps no valid `raw` span
(label-agnostic).  Spans are naturals, so the negative-default branches of the
source are unreachable. -/
def merge_raw_and_norm_drop_overlap (raw norm : List Ent) : List Ent :=
  raw ++ norm.filter fun e =>
    decide (e.begin_ < e.end_) &&
      !(raw.any fun x =>
        decide (x.begin_ < x.end_) && overlapB (entSpan e) (entSpan x))

/-- Conflict test of `db_logging._dedup_spans`: identical span, or same label
with overlapping span. -/
def dedupConflict (e x : Ent) : Bool :=
  (decide (e.begin_ = x.begin_) && decide (e.end_ = x.end_)) ||
    (decide (e.label = x.label) && overlapB (entSpan e) (entSpan x))

/-- Loop of `db_logging._dedup_spans`; `extra` entities are checked against
everything accepted so far, including previously appended extras. -/
def dedupGo (out : List Ent) : List Ent → List Ent
  | [] => out
  | e :: es =>
    if out.any (dedupConflict e) then dedupGo out es
    else dedupGo (out ++ [e]) es

/-- `db_logging._dedup_spans`. -/
def dedup_spans (base extra : List Ent) : List Ent := dedupGo base extra

/-- A raw LLM entity after `analyze_text` cleaning: type and value strings. -/
structure AiEnt where
  type_ : Str
  value : Str
deriving DecidableEq, Repr

/-- `db_logging._rebase_ai_entities_on_original`: re-anchor each LLM
`{type, value}` on the original text with a rolling cursor, retrying from 0,
dropping values that never occur. -/
def rebaseGo (original : Str) (cursor : Nat) : List AiEnt → List Ent
  | [] => []
  | e :: es =>
    let label := upper (trim e.type_)
    let value := trim e.value
    if label = [] ∨ value = [] then rebaseGo original cursor es
    else
      match findFrom original value cursor with
      | some idx =>
        ⟨label, value, idx, idx + value.length⟩ ::
          rebaseGo original (idx + value.length) es
      | none =>
        match findFrom original value 0 with
        | some idx =>
          ⟨label, value, idx, idx + value.length⟩ ::
            rebaseGo original (idx + value.length) es
        | none => rebaseGo original cursor es

/-- `db_logging._rebase_ai_entities_on_original`. -/
def rebase_ai_entities_on_original (original : Str) (ents : List AiEnt) :
    List Ent :=
  rebaseGo original 0 ents

end Sentinel

namespace Sentinel

/-! ## services/ai_external.py — `OfflineDetectorRunner.analyze_text`

`run_infer` (offline_sensitive_detector_min.py) returns the parsed JSON dict
whenever it has the keys `has_sensitive`/`entities`, with no label filtering;
`analyze_text` post-processes it.  A raw entity models one element of the
parsed `entities` list: `none` stands for a non-dict element, and each field is
`none` when missing or not a string. -/

/-- One element of the parsed `entities` list before cleaning. -/
structure AiRawEnt where
  type_ : Option Str
  value : Option Str
deriving DecidableEq, Repr

/-- The cleaning loop of `analyze_text`: keep dict entities whose `type` and
`value` are strings, strip and uppercase the type, strip the value, and drop
entities where either becomes empty. -/
def cleanEntities (ents : List (Option AiRawEnt)) : List AiEnt :=
  ents.filterMap fun e =>
    match e with
    | none => none
    | some e =>
      match e.type_, e.value with
      | some t, some v =>
        let t := upper (trim t)
        let v := trim v
        if t ≠ [] ∧ v ≠ [] then some ⟨t, v⟩ else none
      | _, _ => none

/-- An entity reported by `analyze_text`, optionally span-annotated. -/
structure AiSpanned where
  type_ : Str
  value : Str
  span : Option (Nat × Nat)
deriving DecidableEq, Repr

/-- `ai_external._add_spans`: left-to-right value consumption with a rolling
cursor, retry from 0, pass through without a span when the value is absent. -/
def addSpansGo (text : Str) (cursor : Nat) : List AiEnt → List AiSpanned
  | [] => []
  | e :: es =>
    if e.value = [] then addSpansGo text cursor es
    else
      match findFrom text e.value cursor with
      | some idx =>
        ⟨e.type_, e.value, some (idx, idx + e.value.length)⟩ ::
          addSpansGo text (idx + e.value.length) es
      | none =>
        match findFrom text e.value 0 with
        | some idx =>
          ⟨e.type_, e.value, some (idx, idx + e.value.length)⟩ ::
            addSpansGo text (idx + e.value.length) es
        | none => ⟨e.type_, e.value, none⟩ :: addSpansGo text cursor es

/-- Result shape of `analyze_text`. -/
structure AiResult where
  has_sensitive : Bool
  entities : List AiSpanned
  processing_ms : Nat
deriving DecidableEq, Repr

/-- `OfflineDetectorRunner.analyze_text` after a successful `run_infer`:
`has` and `ents` are the parsed generation's fields, `elapsed` the measured
inference time.  Mirrors
`has_sensitive = bool(clean) if has or clean else False`. -/
def analyze_text (has : Bool) (ents : List (Option AiRawEnt)) (text : Str)
    (return_spans : Bool) (elapsed : Nat) : AiResult :=
  let clean := cleanEntities ents
  let spanned :=
    if return_spans ∧ clean ≠ [] then addSpansGo text 0 clean
    else clean.map fun e => ⟨e.type_, e.value, none⟩
  { has_sensitive := if has || !clean.isEmpty then !clean.isEmpty else false
    entities := spanned
    processing_ms := elapsed }

/-- The closed label whitelist of the detector prompt
(`offline_sensitive_detector_min.SYS_PROMPT`, `ALLOWED LABELS`), which is also
the whitelist of spec §3. -/
def ALLOWED_LABELS : List Str :=
  [ str "NAME", str "PHONE", str "EMAIL", str "ADDRESS", str "POSTAL_CODE",
    str "PERSONAL_CUSTOMS_ID", str "RESIDENT_ID", str "PASSPORT",
    str "DRIVER_LICENSE", str "FOREIGNER_ID", str "HEALTH_INSURANCE_ID",
    str "BUSINESS_ID", str "MILITARY_ID",
    str "JWT", str "API_KEY", str "GITHUB_PAT", str "PRIVATE_KEY",
    str "CARD_NUMBER", str "CARD_EXPIRY", str "BANK_ACCOUNT", str "CARD_CVV",
    str "PAYMENT_PIN", str "MOBILE_PAYMENT_PIN",
    str "MNEMONIC", str "CRYPTO_PRIVATE_KEY", str "HD_WALLET",
    str "PAYMENT_URI_QR",
    str "IPV4", str "IPV6", str "MAC_ADDRESS", str "IMEI" ]

end Sentinel

namespace Sentinel

/-! ## db_logging settings filter -/

/-- `db_logging.LLM_HOST_MAP`, in source order. -/
def LLM_HOST_MAP : List (Str × Str) :=
  [ (str "gpt", str "chatgpt"), (str "gemini", str "gemini"),
    (str "claude", str "claude"), (str "deepseek", str "deepseek"),
    (str "groq", str "groq"), (str "grok", str "grok.com"),
    (str "perplexity", str "perplexity.ai"), (str "poe", str "poe.com"),
    (str "mistral", str "mistral.ai"), (str "cohere", str "cohere.com"),
    (str "huggingface", str "huggingface.co"), (str "you", str "you.com"),
    (str "openrouter", str "openrouter.ai") ]

/-- `db_logging.MCP_HOST_MAP`. -/
def MCP_HOST_MAP : List (Str × Str) :=
  [ (str "gpt_desktop", str "chatgpt"), (str "claude_desktop", str "claude"),
    (str "vscode_copilot", str "copilot") ]

/-- The policy snapshot as read by `_load_settings_config`: `service_filters`
is `none` when the key is absent or not a dict; a per-interface entry is
`none` when present but not a dict; `response_method` is `[]` when absent or
falsy. -/
structure Cfg where
  service_filters : Option (List (Str × Option (List (Str × Bool))))
  response_method : Str
deriving DecidableEq, Repr

/-- Host-substring walk of `_is_monitored_by_settings`: first `(key, substr)`
whose `substr` occurs in the host wins and yields `enabled.get(key, True)`. -/
def hostWalk (enabled : List (Str × Bool)) (h : Str) :
    List (Str × Str) → Bool
  | [] => true
  | (key, substr) :: rest =>
    if isSubstrOf substr h then alookupD enabled key true
    else hostWalk enabled h rest

/-- `db_logging._is_monitored_by_settings`. -/
def is_monitored_by_settings (cfg : Cfg) (interface host : Str) : Bool :=
  let itf := lower (trim (if interface = [] then str "llm" else interface))
  let h := lower (trim host)
  match cfg.service_filters with
  | none => true
  | some sf =>
    match alookup sf itf with
    | none => true
    | some none => true
    | some (some enabled) =>
      if !(enabled.any fun kv => kv.2) then false
      else
        if itf = str "llm" then hostWalk enabled h LLM_HOST_MAP
        else if itf = str "mcp" then hostWalk enabled h MCP_HOST_MAP
        else true

end Sentinel

namespace Sentinel

/-! ## Request/response model and attachment store -/

/-- The wire attachment (`schemas.Attachment`): `data` is kept as decoded
bytes, the base64 encoding living only at the JSON boundary. -/
structure Attachment where
  format : Str
  data : List Nat
deriving DecidableEq, Repr

/-- The inbound request (`schemas.InItem`); optional strings are encoded as
`[]`, matching Python truthiness in the `or`-fallbacks of the handler. -/
structure InItem where
  time : Str
  public_ip : Str
  private_ip : Str
  host : Str
  hostname : Str
  pc_name : Str
  prompt : Str
  attachment : Option Attachment
  interface : Str
deriving DecidableEq, Repr

/-- `attachment._EXT_TO_MIME`. -/
def EXT_TO_MIME : List (Str × Str) :=
  [ (str "png", str "image/png"), (str "jpg", str "image/jpeg"),
    (str "jpeg", str "image/jpeg"), (str "webp", str "image/webp"),
    (str "pdf", str "application/pdf"),
    (str "docx", str "application/vnd.openxmlformats-officedocument.wordprocessingml.document"),
    (str "pptx", str "application/vnd.openxmlformats-officedocument.presentationml.presentation"),
    (str "csv", str "text/csv"), (str "txt", str "text/plain"),
    (str "xlsx", str "application/vnd.openxmlformats-officedocument.spreadsheetml.sheet") ]

/-- `attachment.SavedFileInfo`; the written file is modelled by its bytes. -/
structure SavedFileInfo where
  ext : Str
  mime : Str
  bytes : List Nat
deriving DecidableEq, Repr

/-- `attachment.save_attachment_file`: store the decoded bytes, normalising
the extension; `none` when the attachment or its format/data is missing. -/
def save_attachment_file (item : InItem) : Option SavedFileInfo :=
  match item.attachment with
  | none => none
  | some att =>
    if att.format = [] ∨ att.data = [] then none
    else
      let fmt := lower (trim att.format)
      let fmt := if fmt.head? = some '.' then fmt.tail else fmt
      some ⟨fmt, alookupD EXT_TO_MIME fmt [], att.data⟩

/-- A processed attachment file on disk: its bytes and its dotless suffix. -/
structure ProcFile where
  bytes : List Nat
  suffix : Str
deriving DecidableEq, Repr

/-- The response attachment: `format`, decoded `data` bytes, `size`,
`file_change`. -/
structure RespAttachment where
  format : Str
  data : List Nat
  size : Nat
  file_change : Bool
deriving DecidableEq, Repr

/-- `DbLoggingService._get_attachment_format`. -/
def get_attachment_format (att : Option Attachment) : Str :=
  match att with
  | none => []
  | some a => if a.format = [] then [] else lower a.format

/-- `DbLoggingService._build_response_attachment` (the filesystem read-back is
modelled as returning the processed file's bytes). -/
def build_response_attachment (attSrc : Option Attachment)
    (processed : Option ProcFile) (file_changed : Bool) :
    Option RespAttachment :=
  match processed with
  | none => none
  | some p =>
    let fmt0 := get_attachment_format attSrc
    let fmt :=
      if fmt0 ≠ [] then fmt0
      else if lower p.suffix ≠ [] then lower p.suffix else str "bin"
    some ⟨fmt, p.bytes, p.bytes.length, file_changed⟩

/-! ## Oracles for external collaborators -/

/-- OCR outcome (`OcrService.run_ocr`). -/
structure OcrOut where
  text : Str
  used : Bool
deriving DecidableEq, Repr

/-- The external behaviour the handler depends on.  `regexCands` is the
regex engine's match list per text (the pattern table `regex_rules.PATTERNS`
is not among the sources); `normalize` is
`services.normalize_numbers.normalize_obfuscated_numbers` (also not among the
sources; the spec §4.4 requires it to preserve length); `ai` is
`OfflineDetectorRunner.analyze_text` on the regex-masked prompt, already
cleaned to `{type, value}` pairs; `procMonitored` is the document/image
redaction outcome used only when monitoring is on. -/
structure Oracles where
  regexCands : Str → List RawMatch
  normalize : Str → Str
  ocr : OcrOut
  aiHas : Str → Bool
  aiEnts : Str → List AiEnt
  aiMs : Str → Nat
  elapsed_ms : Nat
  request_id : Str
  adminDirExists : Bool
  simHigh : Bool
  procMonitored : Option ProcFile × Bool

/-- `DbLoggingService._process_attachment_saved`.  When monitoring is off the
saved original is returned unchanged (`file_changed=False`); when it is on,
the redaction pipeline's outcome is the `procMonitored` oracle. -/
def process_attachment_saved (saved : Option SavedFileInfo)
    (attSrc : Option Attachment) (monitored : Bool) (O : Oracles) :
    Option ProcFile × Option RespAttachment :=
  match saved with
  | none => (none, none)
  | some s =>
    if !monitored then
      let p : ProcFile := ⟨s.bytes, if s.ext ≠ [] then s.ext else str "bin"⟩
      (some p, build_response_attachment attSrc (some p) false)
    else
      let pr := O.procMonitored
      (pr.1, build_response_attachment attSrc pr.1 pr.2)

/-! ## Persistence model -/

/-- `models.LogRecord`, with the fields the handler fills. -/
structure LogRecord where
  request_id : Str
  time : Str
  public_ip : Str
  private_ip : Str
  host : Str
  hostname : Str
  prompt : Str
  attachment : Option Attachment
  interface : Str
  modified_prompt : Str
  has_sensitive : Bool
  entities : List Ent
  processing_ms : Nat
  file_blocked : Bool
  allow : Bool
  action : Str
deriving DecidableEq, Repr

/-- A SQLAlchemy session: committed rows plus rows added but not yet
committed (`db.add`/`db.flush` stage, `commit` publishes, `rollback`
discards). -/
structure Db where
  committed : List LogRecord
  pending : List LogRecord
deriving DecidableEq, Repr

/-- `LogRepository.create`: `db.add(rec); db.flush()`. -/
def LogRepository_create (db : Db) (rec : LogRecord) : Db :=
  { db with pending := db.pending ++ [rec] }

/-- `schemas.ServerOut`. -/
structure ServerOut where
  request_id : Str
  host : Str
  modified_prompt : Str
  has_sensitive : Bool
  entities : List Ent
  processing_ms : Nat
  file_blocked : Bool
  allow : Bool
  action : Str
  alert : Str
  attachment : Option RespAttachment
deriving DecidableEq, Repr

end Sentinel

namespace Sentinel

/-! ## Alert builder and the request handler -/

/-- `db_logging._ent_key`. -/
def ent_key (e : Ent) : Str × Nat × Nat := (upper e.label, e.begin_, e.end_)

/-- Lexicographic string order (Python `sorted` on strings). -/
def strLe (x y : Str) : Bool := decide (String.mk x ≤ String.mk y)

/-- Python `sep.join(parts)`. -/
def joinSep (sep : Str) : List Str → Str
  | [] => []
  | [x] => x
  | x :: xs => x ++ sep ++ joinSep sep xs

/-- Python `sorted(set(l))` for strings. -/
def sortedSet (l : List Str) : List Str := sSort strLe l.dedup

/-- `db_logging._build_alert_from_merged`. -/
def build_alert_from_merged (merged regex_src ai_src : List Ent) : Str :=
  let regex_keys := regex_src.map ent_key
  let ai_keys := ai_src.map ent_key
  let labels_regex :=
    (merged.filter fun e => regex_keys.any fun k => decide (k = ent_key e)).map
      fun e => upper e.label
  let labels_ai :=
    (merged.filter fun e =>
      !(regex_keys.any fun k => decide (k = ent_key e)) &&
        (ai_keys.any fun k => decide (k = ent_key e))).map
      fun e => upper e.label
  let only_regex := sortedSet labels_regex
  let only_ai := sortedSet labels_ai
  let parts :=
    (if only_regex ≠ [] then
      [joinSep (str ", ") only_regex ++ str " 값이 정규식으로 식별되었습니다."]
     else []) ++
    (if only_ai ≠ [] then
      [joinSep (str ", ") only_ai ++ str " 값은 AI로 식별되었습니다."]
     else [])
  joinSep (str " ") parts

/-- Prompt (or OCR-text) regex stage of `DbLoggingService.handle`: raw pass,
normalized pass with values recovered from the original slice when the span
fits, then overlap-dropping merge (steps 3-1 to 3-4 and the OCR analogue). -/
def regex_with_norm (O : Oracles) (text : Str) : List Ent :=
  let raw := detect_entities text (O.regexCands text)
  let norm_text := O.normalize text
  let norm0 := detect_entities norm_text (O.regexCands norm_text)
  let norm := norm0.map fun e =>
    if decide (e.begin_ < e.end_) && decide (e.end_ ≤ text.length) then
      { e with value := slice text e.begin_ e.end_ }
    else e
  merge_raw_and_norm_drop_overlap raw norm

/-- Outcome of the monitored/unmonitored branch of the handler. -/
structure BranchOut where
  entities : List Ent
  has_sensitive : Bool
  file_blocked : Bool
  allow : Bool
  action : Str
  final_modified_prompt : Str
  alert_text : Str
  ai_ms : Nat
deriving DecidableEq, Repr

/-- Result of one `DbLoggingService.handle` call. -/
structure HandleResult where
  db : Db
  logRec : LogRecord
  out : ServerOut
  monitored : Bool
  ai_ms : Nat
deriving DecidableEq, Repr

/-- The effective response method:
`(cfg.get("response_method") or "mask").strip().lower()`. -/
def effective_response_method (cfg : Cfg) : Str :=
  lower (trim (if cfg.response_method = [] then str "mask" else cfg.response_method))

/-- Monitored-branch body of `DbLoggingService.handle` (steps 3-9). -/
def monitoredBranch (cfg : Cfg) (O : Oracles) (prompt_text : Str)
    (regex_ents_ocr : List Ent) (ocr_text : Str) (ocr_used : Bool)
    (saved_mime : Str) (savedIsSome : Bool) : BranchOut :=
  let regex_ents_prompt := regex_with_norm O prompt_text
  let masked_for_ai := mask_with_parens_by_entities prompt_text regex_ents_prompt
  let det_has := O.aiHas masked_for_ai
  let det_ents := O.aiEnts masked_for_ai
  let ai_ms := O.aiMs masked_for_ai
  let ai_rebased := rebase_ai_entities_on_original prompt_text det_ents
  let prompt_entities := dedup_spans regex_ents_prompt ai_rebased
  let has_sensitive :=
    !prompt_entities.isEmpty || !regex_ents_ocr.isEmpty || det_has
  let response_method := effective_response_method cfg
  let file_sensitive := !regex_ents_ocr.isEmpty
  let sensitive_any :=
    !prompt_entities.isEmpty || !regex_ents_ocr.isEmpty || det_has
  -- (file_blocked, allow, action, final_modified_prompt)
  let pol : Bool × Bool × Str × Str :=
    if sensitive_any then
      if response_method = str "block" then
        let fm := mask_by_entities prompt_text prompt_entities
        if file_sensitive then (true, false, str "block_file_sensitive", fm)
        else (false, false, str "block_sensitive", fm)
      else if response_method = str "allow" then
        (false, true, str "allow_sensitive", prompt_text)
      else
        (false, true, str "mask_and_allow",
          mask_by_entities prompt_text prompt_entities)
    else (false, true, str "allow", prompt_text)
  let override :=
    decide (saved_mime ≠ []) && (str "image/").isPrefixOf saved_mime &&
      ocr_used &&
      (decide (ocr_text = []) || decide ((trim ocr_text).length < 3)) &&
      savedIsSome && O.adminDirExists && O.simHigh
  let pol := if override then (true, false, str "block_upload_similar", pol.2.2.2) else pol
  let alert0 := build_alert_from_merged prompt_entities regex_ents_prompt ai_rebased
  let alert_text :=
    if alert0 = [] ∧ prompt_entities ≠ [] then
      let labels := sortedSet (prompt_entities.map (·.label))
      if labels ≠ [] then str "Detected: " ++ joinSep (str ", ") labels
      else alert0
    else alert0
  { entities := prompt_entities
    has_sensitive := has_sensitive
    file_blocked := pol.1
    allow := pol.2.1
    action := pol.2.2.1
    final_modified_prompt := pol.2.2.2
    alert_text := alert_text
    ai_ms := ai_ms }

/-- `DbLoggingService.handle`. -/
def handle (db : Db) (cfg : Cfg) (item : InItem) (O : Oracles) : HandleResult :=
  let request_id := O.request_id
  let interface := if item.interface = [] then str "llm" else item.interface
  let host := item.host
  let monitored := is_monitored_by_settings cfg interface host
  let saved_info := save_attachment_file item
  let par := process_attachment_saved saved_info item.attachment monitored O
  let response_attachment := par.2
  let saved_mime : Str := match saved_info with | some s => s.mime | none => []
  let savedIsSome := saved_info.isSome
  let ocr_text := if monitored then O.ocr.text else []
  let ocr_used := if monitored then O.ocr.used else false
  let regex_ents_ocr :=
    if monitored && ocr_used && decide (ocr_text ≠ []) then
      regex_with_norm O ocr_text
    else []
  let prompt_text := item.prompt
  let br :=
    if monitored then
      monitoredBranch cfg O prompt_text regex_ents_ocr ocr_text ocr_used
        saved_mime savedIsSome
    else
      { entities := []
        has_sensitive := false
        file_blocked := false
        allow := true
        action := str "allow_unmonitored"
        final_modified_prompt := prompt_text
        alert_text := []
        ai_ms := 0 }
  let processing_ms := max O.elapsed_ms br.ai_ms
  let host_name := if item.hostname ≠ [] then item.hostname else item.pc_name
  let lrec : LogRecord :=
    { request_id := request_id
      time := item.time
      public_ip := item.public_ip
      private_ip := item.private_ip
      host := if item.host = [] then str "unknown" else item.host
      hostname := host_name
      prompt := prompt_text
      attachment := item.attachment
      interface := interface
      modified_prompt := br.final_modified_prompt
      has_sensitive := br.has_sensitive
      entities := br.entities
      processing_ms := processing_ms
      file_blocked := br.file_blocked
      allow := br.allow
      action := br.action }
  let db := LogRepository_create db lrec
  let out : ServerOut :=
    { request_id := lrec.request_id
      host := lrec.host
      modified_prompt := lrec.modified_prompt
      has_sensitive := lrec.has_sensitive
      entities := lrec.entities
      processing_ms := lrec.processing_ms
      file_blocked := lrec.file_blocked
      allow := lrec.allow
      action := lrec.action
      alert := if monitored then br.alert_text else []
      attachment := response_attachment }
  ⟨db, lrec, out, monitored, br.ai_ms⟩

/-- Modelled from the spec: the `POST /api/logs` route wiring and its
per-request DB session are not among the sources (only the sibling
`routers/mcp.py` shows the `get_db` dependency): one fresh session per
request, `commit()` on success publishing the staged rows, `rollback()` on
any failure discarding them and surfacing a non-2xx (spec §4.11, §7). -/
def ingest (store : List LogRecord) (cfg : Cfg) (item : InItem) (O : Oracles)
    (commitOk : Bool) : List LogRecord × Except Nat ServerOut :=
  let db0 : Db := ⟨store, []⟩
  let r := handle db0 cfg item O
  if commitOk then (r.db.committed ++ r.db.pending, Except.ok r.out)
  else (store, Except.error 500)

end Sentinel

namespace Sentinel

/-! ## Concrete instances used by counterexamples and witnesses -/

/-- An oracle with no regex matches, no OCR, an identity normalizer and a
fixed LLM answer; used to instantiate theorems at concrete inputs. -/
def mkOracle (ents : List AiEnt) (has : Bool) (ms wall : Nat) : Oracles :=
  { regexCands := fun _ => []
    normalize := fun t => t
    ocr := ⟨[], false⟩
    aiHas := fun _ => has
    aiEnts := fun _ => ents
    aiMs := fun _ => ms
    elapsed_ms := wall
    request_id := str "req-0"
    adminDirExists := false
    simHigh := false
    procMonitored := (none, false) }

/-- Default (monitor-everything) policy snapshot. -/
def cfgMon : Cfg := ⟨none, []⟩

/-- Policy snapshot whose `llm` service filter is the empty mapping. -/
def cfgEmptyMap : Cfg := ⟨some [(str "llm", some [])], []⟩

/-- Policy snapshot with `gpt` unchecked and `gemini` checked. -/
def cfgGptOff : Cfg :=
  ⟨some [(str "llm", some [(str "gpt", false), (str "gemini", true)])], []⟩

/-- A minimal request without attachment. -/
def mkItem (prompt : String) (host : String) : InItem :=
  { time := str "2026-01-01T00-00-00", public_ip := [], private_ip := [],
    host := str host, hostname := [], pc_name := [], prompt := str prompt,
    attachment := none, interface := str "llm" }

/-- A request carrying a three-byte PNG attachment. -/
def itemWithAtt : InItem :=
  { mkItem "my email a@b.co" "chatgpt.com" with
    attachment := some ⟨str "png", [1, 2, 3]⟩ }

/-- Oracle staging the C3 scenario: regex reports `EMAIL` on `[0,5)` of the
prompt and the LLM reports the value `defg`, which re-anchors to `[3,7)`. -/
def oC3 : Oracles :=
  { mkOracle [⟨str "NAME", str "defg"⟩] true 7 3 with
    regexCands := fun t =>
      if t = str "abcdefg" then [⟨str "EMAIL", 0, 5⟩] else [] }

/-- C9 scenario text. -/
def tC9 : Str := str "abcde"

/-- C9 scenario entities: a valid anchor `[0,3)` whose value occurs nowhere,
an unanchored entity whose value `cde` occurs at `[2,5)`, and an unanchored
entity whose value `de` occurs at `[3,5)`. -/
def entsC9 : List Ent :=
  [⟨str "A", str "zz", 0, 3⟩, ⟨str "B", str "cde", 9, 11⟩,
   ⟨str "C", str "de", 9, 11⟩]

end Sentinel

namespace Sentinel

/-! ## Toolbox: sorting, selection and search lemmas -/

theorem sInsert_perm {α : Type} (le : α → α → Bool) (x : α) (l : List α) :
    List.Perm (sInsert le x l) (x :: l) := by
  induction l with
  | nil => simp [sInsert]
  | cons y ys ih =>
    simp only [sInsert]
    by_cases h : le x y = true
    · rw [if_pos h]
    · rw [if_neg h]
      exact ((ih.cons y).trans (List.Perm.swap x y ys))

theorem sSort_perm {α : Type} (le : α → α → Bool) (l : List α) :
    List.Perm (sSort le l) l := by
  induction l with
  | nil => simp [sSort]
  | cons x xs ih => exact (sInsert_perm le x (sSort le xs)).trans (ih.cons x)

theorem sSort_mem {α : Type} (le : α → α → Bool) (l : List α) (x : α) :
    x ∈ sSort le l ↔ x ∈ l :=
  (sSort_perm le l).mem_iff

theorem sInsert_pairwise {α : Type} (le : α → α → Bool)
    (htot : ∀ a b, le a b = true ∨ le b a = true)
    (htrans : ∀ a b c, le a b = true → le b c = true → le a c = true)
    (x : α) (l : List α) (h : l.Pairwise (fun a b => le a b = true)) :
    (sInsert le x l).Pairwise (fun a b => le a b = true) := by
  induction l with
  | nil => simp [sInsert]
  | cons y ys ih =>
    rcases h with _ | ⟨hy, hys⟩
    simp only [sInsert]
    by_cases hxy : le x y = true
    · rw [if_pos hxy]
      refine List.Pairwise.cons ?_ (List.Pairwise.cons hy hys)
      intro z hz
      rcases List.mem_cons.mp hz with rfl | hz2
      · exact hxy
      · exact htrans x y z hxy (hy z hz2)
    · rw [if_neg hxy]
      refine List.Pairwise.cons ?_ (ih hys)
      intro z hz
      rcases List.mem_cons.mp ((sInsert_perm le x ys).mem_iff.mp hz) with rfl | hz2
      · rcases htot y z with hh | hh
        · exact hh
        · exact absurd hh hxy
      · exact hy z hz2

theorem sSort_pairwise {α : Type} (le : α → α → Bool)
    (htot : ∀ a b, le a b = true ∨ le b a = true)
    (htrans : ∀ a b c, le a b = true → le b c = true → le a c = true)
    (l : List α) :
    (sSort le l).Pairwise (fun a b => le a b = true) := by
  induction l with
  | nil => simp [sSort]
  | cons x xs ih => exact sInsert_pairwise le htot htrans x _ ih

theorem overlapB_comm (x y : Nat × Nat) : overlapB x y = overlapB y x := by
  simp [overlapB, Bool.or_comm]

theorem selGo_append {α : Type} (sp : α → Nat × Nat) (acc : List α)
    (l : List α) : ∃ ext, selGo sp acc l = acc ++ ext := by
  induction l generalizing acc with
  | nil => exact ⟨[], by simp [selGo]⟩
  | cons r rs ih =>
    by_cases h : (acc.any fun t => overlapB (sp r) (sp t)) = true
    · simpa [selGo, h] using ih acc
    · obtain ⟨ext, hext⟩ := ih (acc ++ [r])
      exact ⟨r :: ext, by simp [selGo, h, hext]⟩

theorem selGo_subset {α : Type} (sp : α → Nat × Nat) (acc : List α)
    (l : List α) (x : α) (hx : x ∈ selGo sp acc l) : x ∈ acc ∨ x ∈ l := by
  induction l generalizing acc with
  | nil => simp [selGo] at hx; exact Or.inl hx
  | cons r rs ih =>
    by_cases h : (acc.any fun t => overlapB (sp r) (sp t)) = true
    · simp only [selGo, h, if_true] at hx
      rcases ih acc hx with h1 | h1
      · exact Or.inl h1
      · exact Or.inr (List.mem_cons_of_mem r h1)
    · simp only [selGo, h, if_false] at hx
      rcases ih (acc ++ [r]) hx with h1 | h1
      · rcases List.mem_append.mp h1 with h2 | h2
        · exact Or.inl h2
        · simp only [List.mem_singleton] at h2
          rw [h2]
          exact Or.inr (List.mem_cons_self r rs)
      · exact Or.inr (List.mem_cons_of_mem r h1)

theorem selGo_pairwise {α : Type} (sp : α → Nat × Nat) (acc : List α)
    (l : List α)
    (hacc : acc.Pairwise fun a b => overlapB (sp a) (sp b) = false) :
    (selGo sp acc l).Pairwise fun a b => overlapB (sp a) (sp b) = false := by
  induction l generalizing acc with
  | nil => simpa [selGo] using hacc
  | cons r rs ih =>
    by_cases h : (acc.any fun t => overlapB (sp r) (sp t)) = true
    · simpa [selGo, h] using ih acc hacc
    · simp only [selGo, h, if_false]
      refine ih (acc ++ [r]) ?_
      rw [List.pairwise_append]
      refine ⟨hacc, List.pairwise_singleton _ _, ?_⟩
      intro a ha b hb
      simp only [List.mem_singleton] at hb
      rw [hb]
      have hfalse : (acc.any fun t => overlapB (sp r) (sp t)) = false := by
        simpa using h
      have hno := List.any_eq_false.mp hfalse a ha
      rw [overlapB_comm]
      exact Bool.eq_false_iff.mpr hno

theorem selGo_covers {α : Type} (sp : α → Nat × Nat) (le : α → α → Bool)
    (acc : List α) (l : List α)
    (hacc : ∀ a ∈ acc, ∀ x ∈ l, le a x = true)
    (hsort : l.Pairwise fun a b => le a b = true) :
    ∀ r ∈ l, ∃ r' ∈ selGo sp acc l,
      r' = r ∨ (overlapB (sp r) (sp r') = true ∧ le r' r = true) := by
  induction l generalizing acc with
  | nil => intro r hr; simp at hr
  | cons c cs ih =>
    rcases hsort with _ | ⟨hc, hcs⟩
    intro r hr
    by_cases h : (acc.any fun t => overlapB (sp c) (sp t)) = true
    · simp only [selGo, h, if_true]
      rcases List.mem_cons.mp hr with heq | hr2
      · obtain ⟨a, ha, hov⟩ := List.any_eq_true.mp h
        obtain ⟨ext, hext⟩ := selGo_append sp acc cs
        refine ⟨a, ?_, Or.inr ⟨?_, hacc a ha r hr⟩⟩
        · rw [hext]
          exact List.mem_append_left _ ha
        · rw [heq]
          simpa using hov
      · exact ih acc (fun a ha x hx => hacc a ha x (List.mem_cons_of_mem c hx))
          hcs r hr2
    · simp only [selGo, h, if_false]
      rcases List.mem_cons.mp hr with heq | hr2
      · obtain ⟨ext, hext⟩ := selGo_append sp (acc ++ [c]) cs
        refine ⟨c, ?_, Or.inl heq.symm⟩
        rw [hext]
        exact List.mem_append_left _
          (List.mem_append_right _ (List.mem_singleton_self c))
      · refine ih (acc ++ [c]) ?_ hcs r hr2
        intro a ha x hx
        rcases List.mem_append.mp ha with ha2 | ha2
        · exact hacc a ha2 x (List.mem_cons_of_mem c hx)
        · simp only [List.mem_singleton] at ha2
          subst ha2
          exact hc x hx

end Sentinel

namespace Sentinel

/-! ## Toolbox: find/occurrence/slice lemmas -/

theorem findFromAux_some {s sub : Str} {i fuel j : Nat}
    (h : findFromAux s sub i fuel = some j) :
    sub.isPrefixOf (s.drop j) = true ∧ i ≤ j ∧ j < i + fuel ∧
      ∀ k, i ≤ k → k < j → sub.isPrefixOf (s.drop k) = false := by
  induction fuel generalizing i with
  | zero => simp [findFromAux] at h
  | succ fuel ih =>
    by_cases hp : sub.isPrefixOf (s.drop i) = true
    · simp only [findFromAux, hp, if_true, Option.some_inj] at h
      subst h
      exact ⟨hp, Nat.le_refl _, Nat.lt_of_lt_of_le (Nat.lt_succ_self _) (by omega),
        fun k hk1 hk2 => absurd hk1 (by omega)⟩
    · simp only [findFromAux, hp, if_false] at h
      obtain ⟨h1, h2, h3, h4⟩ := ih h
      refine ⟨h1, by omega, by omega, ?_⟩
      intro k hk1 hk2
      rcases Nat.eq_or_lt_of_le hk1 with heq | hlt
      · rw [heq] at hp
        exact Bool.eq_false_iff.mpr hp
      · exact h4 k hlt hk2

theorem findFromAux_none {s sub : Str} {i fuel : Nat}
    (h : findFromAux s sub i fuel = none) :
    ∀ k, i ≤ k → k < i + fuel → sub.isPrefixOf (s.drop k) = false := by
  induction fuel generalizing i with
  | zero => intro k hk1 hk2; omega
  | succ fuel ih =>
    by_cases hp : sub.isPrefixOf (s.drop i) = true
    · simp [findFromAux, hp] at h
    · simp only [findFromAux, hp, if_false] at h
      intro k hk1 hk2
      rcases Nat.eq_or_lt_of_le hk1 with heq | hlt
      · rw [heq] at hp
        exact Bool.eq_false_iff.mpr hp
      · exact ih h k hlt (by omega)

theorem findFrom_some {s sub : Str} {start j : Nat}
    (h : findFrom s sub start = some j) :
    occAt s sub j = true ∧ start ≤ j ∧ j ≤ s.length ∧
      ∀ k, start ≤ k → k < j → occAt s sub k = false := by
  unfold findFrom at h
  by_cases hs : start ≤ s.length
  · rw [if_pos hs] at h
    obtain ⟨h1, h2, h3, h4⟩ := findFromAux_some h
    exact ⟨h1, h2, by omega, h4⟩
  · rw [if_neg hs] at h
    exact absurd h (by simp)

theorem findFrom_none {s sub : Str} {start : Nat} (hsub : sub ≠ [])
    (h : findFrom s sub start = none) :
    ∀ k, start ≤ k → occAt s sub k = false := by
  intro k hk
  by_cases hklen : k ≤ s.length
  · unfold findFrom at h
    by_cases hs : start ≤ s.length
    · rw [if_pos hs] at h
      exact findFromAux_none h k hk (by omega)
    · omega
  · unfold occAt
    rw [List.drop_eq_nil_of_le (by omega)]
    cases sub with
    | nil => exact absurd rfl hsub
    | cons c cs => simp [List.isPrefixOf]

theorem occAt_isPrefix {s v : Str} {p : Nat} (h : occAt s v p = true) :
    List.IsPrefix v (s.drop p) :=
  List.isPrefixOf_iff_prefix.mp h

theorem occAt_of_prefix {s v : Str} {p : Nat} (h : List.IsPrefix v (s.drop p)) :
    occAt s v p = true :=
  List.isPrefixOf_iff_prefix.mpr h

theorem slice_eq_drop_take (s : Str) (b e : Nat) :
    slice s b e = (s.drop b).take (e - b) := by
  simp [slice, List.drop_take]

theorem occAt_slice {s v : Str} {p : Nat} (h : occAt s v p = true) :
    slice s p (p + v.length) = v := by
  obtain ⟨t, ht⟩ := occAt_isPrefix h
  rw [slice_eq_drop_take, ← ht, Nat.add_sub_cancel_left]
  simp [List.take_left]

theorem occAt_add_length_le {s v : Str} {p : Nat} (hv : v ≠ [])
    (h : occAt s v p = true) : p + v.length ≤ s.length := by
  obtain ⟨t, ht⟩ := occAt_isPrefix h
  have hlen : (s.drop p).length = v.length + t.length := by
    rw [← ht]; simp
  have hdl : (s.drop p).length = s.length - p := by simp
  have hvpos : 0 < v.length := List.length_pos.mpr hv
  omega

theorem infix_iff_exists_occAt (v s : Str) :
    List.IsInfix v s ↔ ∃ p, occAt s v p = true := by
  constructor
  · rintro ⟨l, r, rfl⟩
    refine ⟨l.length, occAt_of_prefix ?_⟩
    rw [List.append_assoc, List.drop_left]
    exact ⟨r, rfl⟩
  · rintro ⟨p, hp⟩
    obtain ⟨t, ht⟩ := occAt_isPrefix hp
    refine ⟨s.take p, t, ?_⟩
    rw [List.append_assoc, ht, List.take_append_drop]

theorem slice_occAt {s : Str} {b e : Nat} {v : Str}
    (h : slice s b e = v) : occAt s v b = true := by
  refine occAt_of_prefix ?_
  rw [← h, slice_eq_drop_take]
  exact List.take_prefix _ _

end Sentinel

namespace Sentinel

/-! ## C8: processing time -/

/-- C8: for every request, the returned `processing_ms` equals the maximum of
the wall-clock elapsed milliseconds and the LLM-reported inference
milliseconds, hence `processing_ms ≥ llm_reported_ms` and `processing_ms ≥ 0`. -/
theorem C8_processing_ms_is_max (db : Db) (cfg : Cfg) (item : InItem)
    (O : Oracles) :
    (handle db cfg item O).out.processing_ms
        = max O.elapsed_ms (handle db cfg item O).ai_ms ∧
      (handle db cfg item O).ai_ms ≤ (handle db cfg item O).out.processing_ms ∧
      0 ≤ (handle db cfg item O).out.processing_ms := by
  refine ⟨rfl, ?_, Nat.zero_le _⟩
  show (handle db cfg item O).ai_ms
      ≤ max O.elapsed_ms (handle db cfg item O).ai_ms
  exact Nat.le_max_right _ _

/-! ## C10 / C6: the LLM output parser -/

theorem mem_cleanEntities {e : AiEnt} {ents : List (Option AiRawEnt)}
    (h : e ∈ cleanEntities ents) : e.type_ ≠ [] ∧ e.value ≠ [] := by
  unfold cleanEntities at h
  obtain ⟨a, _, hfa⟩ := List.mem_filterMap.mp h
  match a with
  | none => simp at hfa
  | some ⟨none, _⟩ => simp at hfa
  | some ⟨some t, none⟩ => simp at hfa
  | some ⟨some t, some v⟩ =>
    by_cases hcond : upper (trim t) ≠ [] ∧ trim v ≠ []
    · have hsome : some (⟨upper (trim t), trim v⟩ : AiEnt) = some e := by
        rw [← hfa]
        simp [hcond]
      cases Option.some_inj.mp hsome
      exact hcond
    · have hnone : (none : Option AiEnt) = some e := by
        rw [← hfa]
        simp [hcond]
      simp at hnone

theorem mem_addSpansGo {x : AiSpanned} {text : Str} {cur : Nat}
    {l : List AiEnt} (h : x ∈ addSpansGo text cur l) :
    ∃ e ∈ l, x.type_ = e.type_ ∧ x.value = e.value := by
  induction l generalizing cur with
  | nil => simp [addSpansGo] at h
  | cons e es ih =>
    unfold addSpansGo at h
    split_ifs at h with hv
    · obtain ⟨e', he', hx⟩ := ih h
      exact ⟨e', List.mem_cons_of_mem e he', hx⟩
    · rcases hf : findFrom text e.value cur with _ | idx
      · rw [hf] at h
        rcases hf0 : findFrom text e.value 0 with _ | idx0
        · rw [hf0] at h
          rcases List.mem_cons.mp h with heq | hmem
          · exact ⟨e, List.mem_cons_self _ _, by rw [heq], by rw [heq]⟩
          · obtain ⟨e', he', hx⟩ := ih hmem
            exact ⟨e', List.mem_cons_of_mem e he', hx⟩
        · rw [hf0] at h
          rcases List.mem_cons.mp h with heq | hmem
          · exact ⟨e, List.mem_cons_self _ _, by rw [heq], by rw [heq]⟩
          · obtain ⟨e', he', hx⟩ := ih hmem
            exact ⟨e', List.mem_cons_of_mem e he', hx⟩
      · rw [hf] at h
        rcases List.mem_cons.mp h with heq | hmem
        · exact ⟨e, List.mem_cons_self _ _, by rw [heq], by rw [heq]⟩
        · obtain ⟨e', he', hx⟩ := ih hmem
          exact ⟨e', List.mem_cons_of_mem e he', hx⟩

theorem addSpansGo_eq_nil_iff {text : Str} {cur : Nat} {l : List AiEnt}
    (h : ∀ e ∈ l, e.value ≠ []) :
    addSpansGo text cur l = [] ↔ l = [] := by
  induction l generalizing cur with
  | nil => simp [addSpansGo]
  | cons e es ih =>
    unfold addSpansGo
    have hv : e.value ≠ [] := h e (List.mem_cons_self _ _)
    rw [if_neg (by simpa using hv)]
    rcases hf : findFrom text e.value cur with _ | idx
    · rcases hf0 : findFrom text e.value 0 with _ | idx0 <;> simp
    · simp

/-- C10: `analyze_text` reports `has_sensitive = true` exactly when its
returned cleaned entity list is non-empty; in particular a model-reported
`has_sensitive = true` whose entities are all dropped comes back `false`. -/
theorem C10_has_sensitive_iff_entities (has : Bool)
    (ents : List (Option AiRawEnt)) (text : Str) (rs : Bool) (ms : Nat) :
    (analyze_text has ents text rs ms).has_sensitive = true ↔
      (analyze_text has ents text rs ms).entities ≠ [] := by
  have hval : ∀ e ∈ cleanEntities ents, e.value ≠ [] :=
    fun e he => (mem_cleanEntities he).2
  by_cases hc : cleanEntities ents = []
  · simp [analyze_text, hc]
  · have hne : (cleanEntities ents).isEmpty = false := by
      simpa [List.isEmpty_iff] using hc
    unfold analyze_text
    simp only [hne, Bool.not_false, Bool.or_true, if_true]
    constructor
    · intro _
      by_cases hrs : rs ∧ cleanEntities ents ≠ []
      · rw [if_pos hrs]
        simpa using (addSpansGo_eq_nil_iff hval).not.mpr hc
      · rw [if_neg hrs]
        simpa using hc
    · intro _
      trivial

/-- C6 counterexample: the parser keeps an entity whose label `NICKNAME` is
not in the closed whitelist, contradicting the claimed whitelist filtering. -/
theorem C6_counterexample :
    str "NICKNAME" ∉ ALLOWED_LABELS ∧
      (analyze_text true [some ⟨some (str "NICKNAME"), some (str "bob")⟩]
          (str "t") false 5).entities =
        [⟨str "NICKNAME", str "bob", none⟩] := by
  constructor
  · decide
  · rfl

/-- C6 amended: the parser drops entities that are not objects, whose type or
value is not a string, or whose type or value is empty after trimming; every
reported entity carries a non-empty (trimmed, uppercased) label and a
non-empty trimmed value, but labels are not checked against the whitelist. -/
theorem C6_parser_nonempty_fields (has : Bool) (ents : List (Option AiRawEnt))
    (text : Str) (rs : Bool) (ms : Nat) :
    ∀ e ∈ (analyze_text has ents text rs ms).entities,
      e.type_ ≠ [] ∧ e.value ≠ [] := by
  intro e he
  unfold analyze_text at he
  simp only [] at he
  split_ifs at he with hrs
  · obtain ⟨e', he', ht, hv⟩ := mem_addSpansGo he
    obtain ⟨h1, h2⟩ := mem_cleanEntities he'
    rw [ht, hv]
    exact ⟨h1, h2⟩
  · obtain ⟨e', he', heq⟩ := List.mem_map.mp he
    obtain ⟨h1, h2⟩ := mem_cleanEntities he'
    rw [← heq]
    exact ⟨h1, h2⟩

end Sentinel

namespace Sentinel

/-! ## C5: the monitoring decision -/

theorem hostWalk_false_iff (enabled : List (Str × Bool)) (h : Str) :
    ∀ m : List (Str × Str),
      hostWalk enabled h m = false ↔
        ∃ pre kv post, m = pre ++ kv :: post ∧
          (∀ kv' ∈ pre, isSubstrOf kv'.2 h = false) ∧
          isSubstrOf kv.2 h = true ∧ alookupD enabled kv.1 true = false := by
  intro m
  induction m with
  | nil =>
    constructor
    · intro hw
      simp [hostWalk] at hw
    · rintro ⟨pre, kv, post, hdec, -, -, -⟩
      cases pre <;> simp at hdec
  | cons p rest ih =>
    obtain ⟨key, substr⟩ := p
    unfold hostWalk
    split_ifs with hsub
    · constructor
      · intro hal
        exact ⟨[], (key, substr), rest, rfl, by simp, hsub, hal⟩
      · rintro ⟨pre, kv, post, hdec, hpre, hkv, hal⟩
        cases pre with
        | nil =>
          simp only [List.nil_append, List.cons.injEq] at hdec
          obtain ⟨h1, h2⟩ := hdec
          rw [← h1] at hal
          exact hal
        | cons q pre2 =>
          simp only [List.cons_append, List.cons.injEq] at hdec
          obtain ⟨h1, h2⟩ := hdec
          have hq := hpre q (List.mem_cons_self _ _)
          rw [← h1] at hq
          dsimp only at hq
          rw [hq] at hsub
          exact Bool.noConfusion hsub
    · rw [ih]
      constructor
      · rintro ⟨pre, kv, post, hdec, hpre, hkv, hal⟩
        refine ⟨(key, substr) :: pre, kv, post, by rw [hdec, List.cons_append],
          ?_, hkv, hal⟩
        intro kv2 hkv2
        rcases List.mem_cons.mp hkv2 with heq | hm
        · rw [heq]
          exact Bool.eq_false_iff.mpr hsub
        · exact hpre kv2 hm
      · rintro ⟨pre, kv, post, hdec, hpre, hkv, hal⟩
        cases pre with
        | nil =>
          simp only [List.nil_append, List.cons.injEq] at hdec
          obtain ⟨h1, h2⟩ := hdec
          rw [← h1] at hkv
          dsimp only at hkv
          exact absurd hkv hsub
        | cons q pre2 =>
          simp only [List.cons_append, List.cons.injEq] at hdec
          obtain ⟨h1, h2⟩ := hdec
          exact ⟨pre2, kv, post, h2,
            fun kv2 hm => hpre kv2 (List.mem_cons_of_mem _ hm), hkv, hal⟩

/-- C5 counterexample: with `service_filters["llm"]` present but an empty
mapping, the code decides `monitored = false`, not the claimed default-on
`monitored = true`. -/
theorem C5_counterexample :
    is_monitored_by_settings cfgEmptyMap (str "llm") [] = false := by decide

/-- C5 amended: a missing or non-mapping `service_filters` entry yields
`monitored = true`; `monitored = false` arises exactly when the interface
mapping exists and either every value of the (possibly empty) mapping is
false, or some value is true, the interface is `llm` or `mcp`, and the
*first* entry of that interface's host map whose substring occurs in the
lowercased host has its key mapped to false (first match wins: a later
false-keyed match cannot turn monitoring off). -/
theorem C5_monitoring_characterisation (cfg : Cfg) (interface host : Str) :
    (cfg.service_filters = none →
      is_monitored_by_settings cfg interface host = true) ∧
    (∀ sf, cfg.service_filters = some sf →
      (alookup sf (lower (trim (if interface = [] then str "llm" else interface)))
          = none ∨
        alookup sf (lower (trim (if interface = [] then str "llm" else interface)))
          = some none) →
      is_monitored_by_settings cfg interface host = true) ∧
    (is_monitored_by_settings cfg interface host = false ↔
      ∃ sf enabled, cfg.service_filters = some sf ∧
        alookup sf (lower (trim (if interface = [] then str "llm" else interface)))
          = some (some enabled) ∧
        ((∀ kv ∈ enabled, kv.2 = false) ∨
          (∃ kv ∈ enabled, kv.2 = true) ∧
            ∃ hm,
              ((lower (trim (if interface = [] then str "llm" else interface))
                  = str "llm" ∧ hm = LLM_HOST_MAP) ∨
               (lower (trim (if interface = [] then str "llm" else interface))
                  = str "mcp" ∧ hm = MCP_HOST_MAP)) ∧
              ∃ pre kv post, hm = pre ++ kv :: post ∧
                (∀ kv' ∈ pre, isSubstrOf kv'.2 (lower (trim host)) = false) ∧
                isSubstrOf kv.2 (lower (trim host)) = true ∧
                alookupD enabled kv.1 true = false)) := by
  refine ⟨?_, ?_, ?_, ?_⟩
  · intro hsf
    unfold is_monitored_by_settings
    rw [hsf]
  · intro sf hsf hlook
    unfold is_monitored_by_settings
    rw [hsf]
    dsimp only
    rcases hlook with hl | hl
    · rw [hl]
    · rw [hl]
  · intro hmon
    unfold is_monitored_by_settings at hmon
    rcases hsf : cfg.service_filters with _ | sf
    · rw [hsf] at hmon
      simp at hmon
    · rw [hsf] at hmon
      dsimp only at hmon
      rcases hlook : alookup sf
          (lower (trim (if interface = [] then str "llm" else interface)))
        with _ | enabled?
      · rw [hlook] at hmon
        simp at hmon
      · rw [hlook] at hmon
        rcases enabled? with _ | enabled
        · simp at hmon
        · refine ⟨sf, enabled, rfl, hlook, ?_⟩
          dsimp only at hmon
          by_cases hany : (enabled.any fun kv => kv.2) = true
          · right
            refine ⟨?_, ?_⟩
            · obtain ⟨kv, hkv, hv⟩ := List.any_eq_true.mp hany
              exact ⟨kv, hkv, hv⟩
            · rw [if_neg (by simp [hany])] at hmon
              by_cases h1 : lower (trim (if interface = [] then str "llm" else interface)) = str "llm"
              · rw [if_pos h1] at hmon
                exact ⟨LLM_HOST_MAP, Or.inl ⟨h1, rfl⟩,
                  (hostWalk_false_iff enabled (lower (trim host))
                    LLM_HOST_MAP).mp hmon⟩
              · rw [if_neg h1] at hmon
                by_cases h2 : lower (trim (if interface = [] then str "llm" else interface)) = str "mcp"
                · rw [if_pos h2] at hmon
                  exact ⟨MCP_HOST_MAP, Or.inr ⟨h2, rfl⟩,
                    (hostWalk_false_iff enabled (lower (trim host))
                      MCP_HOST_MAP).mp hmon⟩
                · rw [if_neg h2] at hmon
                  simp at hmon
          · left
            intro kv hkv
            have := List.any_eq_false.mp (Bool.eq_false_iff.mpr hany) kv hkv
            simpa using this
  · rintro ⟨sf, enabled, hsf, hlook, hcase⟩
    unfold is_monitored_by_settings
    rw [hsf]
    dsimp only
    rw [hlook]
    dsimp only
    rcases hcase with hall | ⟨⟨kv0, hkv0, hv0⟩, hm, hsel, pre, kv, post, hdec,
        hpre, hkv, hal⟩
    · have hany : (enabled.any fun kv => kv.2) = false :=
        List.any_eq_false.mpr fun kv hkv => by simp [hall kv hkv]
      rw [if_pos (by simp [hany])]
    · have hany : (enabled.any fun kv => kv.2) = true :=
        List.any_eq_true.mpr ⟨kv0, hkv0, hv0⟩
      rw [if_neg (by simp [hany])]
      rcases hsel with ⟨hitf, hhm⟩ | ⟨hitf, hhm⟩
      · rw [if_pos hitf]
        exact (hostWalk_false_iff enabled (lower (trim host)) LLM_HOST_MAP).mpr
          ⟨pre, kv, post, by rw [← hhm, hdec], hpre, hkv, hal⟩
      · rw [if_neg (by rw [hitf]; decide), if_pos hitf]
        exact (hostWalk_false_iff enabled (lower (trim host)) MCP_HOST_MAP).mpr
          ⟨pre, kv, post, by rw [← hhm, hdec], hpre, hkv, hal⟩

/-- Witness for the C5 amended theorem at a concrete snapshot: `gpt` is
unchecked while `gemini` is checked, the host is `chatgpt.com`, monitoring
is off, and the characterisation names the first-matching host-map entry. -/
theorem C5_monitoring_characterisation_witness :
    ∃ sf enabled,
      cfgGptOff.service_filters = some sf ∧
      alookup sf (lower (trim (if (str "llm") = [] then str "llm" else str "llm")))
        = some (some enabled) ∧
      ((∀ kv ∈ enabled, kv.2 = false) ∨
        (∃ kv ∈ enabled, kv.2 = true) ∧
          ∃ hm,
            ((lower (trim (if (str "llm") = [] then str "llm" else str "llm"))
                = str "llm" ∧ hm = LLM_HOST_MAP) ∨
             (lower (trim (if (str "llm") = [] then str "llm" else str "llm"))
                = str "mcp" ∧ hm = MCP_HOST_MAP)) ∧
            ∃ pre kv post, hm = pre ++ kv :: post ∧
              (∀ kv' ∈ pre,
                isSubstrOf kv'.2 (lower (trim (str "chatgpt.com"))) = false) ∧
              isSubstrOf kv.2 (lower (trim (str "chatgpt.com"))) = true ∧
              alookupD enabled kv.1 true = false) :=
  (C5_monitoring_characterisation cfgGptOff (str "llm") (str "chatgpt.com")).2.2.mp
    (by decide)

end Sentinel

namespace Sentinel

/-! ## C2: unmonitored requests are passed through untouched -/

/-- C2: when the policy decides monitored = false, the handler returns no
entities, `has_sensitive = false`, the unmodified prompt,
`allow = true`, `file_blocked = false`, `action = "allow_unmonitored"`, and
the response attachment carries bytes bit-identical to the request's
attachment bytes (with `file_change = false`). -/
theorem C2_unmonitored_passthrough (db : Db) (cfg : Cfg) (item : InItem)
    (O : Oracles)
    (hmon : is_monitored_by_settings cfg
      (if item.interface = [] then str "llm" else item.interface)
        item.host = false) :
    (handle db cfg item O).out.entities = [] ∧
    (handle db cfg item O).out.has_sensitive = false ∧
    (handle db cfg item O).out.modified_prompt = item.prompt ∧
    (handle db cfg item O).out.allow = true ∧
    (handle db cfg item O).out.file_blocked = false ∧
    (handle db cfg item O).out.action = str "allow_unmonitored" ∧
    (∀ att, item.attachment = some att → att.format ≠ [] → att.data ≠ [] →
      ∃ ra, (handle db cfg item O).out.attachment = some ra ∧
        ra.data = att.data ∧ ra.file_change = false) := by
  unfold handle
  simp only [hmon, Bool.false_eq_true, if_false, Bool.false_and, Bool.and_false]
  refine ⟨trivial, trivial, trivial, trivial, trivial, trivial, ?_⟩
  intro att hatt hf hd
  unfold process_attachment_saved save_attachment_file
  rw [hatt]
  dsimp only
  rw [if_neg (by simp [hf, hd])]
  dsimp only
  unfold build_response_attachment
  dsimp only
  exact ⟨_, rfl, rfl, rfl⟩

/-! ## C1: exactly one persisted record per successful ingestion -/

/-- C1: a successful response from the ingestion endpoint leaves exactly one
persisted LogRecord keyed by the returned `request_id` (given a fresh UUID),
and a failed commit leaves the store unchanged and surfaces a non-2xx. -/
theorem C1_ingest_exactly_one (store : List LogRecord) (cfg : Cfg)
    (item : InItem) (O : Oracles) (commitOk : Bool)
    (hfresh : ∀ r ∈ store, r.request_id ≠ O.request_id) :
    (∀ out, (ingest store cfg item O commitOk).2 = Except.ok out →
      ((ingest store cfg item O commitOk).1.filter
        (fun r => decide (r.request_id = out.request_id))).length = 1) ∧
    ((ingest store cfg item O commitOk).2 = Except.error 500 →
      (ingest store cfg item O commitOk).1 = store) ∧
    (commitOk = false → (ingest store cfg item O commitOk).2 = Except.error 500) := by
  cases commitOk with
  | false =>
    refine ⟨?_, fun _ => rfl, fun _ => rfl⟩
    intro out h
    simp [ingest] at h
  | true =>
    refine ⟨?_, ?_, ?_⟩
    · intro out hout
      have hout' : Except.ok (ε := Nat) (handle ⟨store, []⟩ cfg item O).out
          = Except.ok out := by
        simpa [ingest] using hout
      have hrid : out.request_id = O.request_id := by
        rw [← Except.ok.inj hout']
        rfl
      show ((store ++ [(handle ⟨store, []⟩ cfg item O).logRec]).filter
        (fun r => decide (r.request_id = out.request_id))).length = 1
      rw [List.filter_append]
      have h1 : store.filter (fun r => decide (r.request_id = out.request_id)) = [] := by
        rw [List.filter_eq_nil_iff]
        intro a ha
        simp only [decide_eq_true_eq]
        rw [hrid]
        exact hfresh a ha
      have h2 : (handle ⟨store, []⟩ cfg item O).logRec.request_id
          = O.request_id := rfl
      rw [h1]
      simp [hrid, h2]
    · intro h
      simp [ingest] at h
    · intro h
      simp at h

end Sentinel

namespace Sentinel

/-! ## Witnesses for the hypothesis-bearing theorems above -/

/-- Witness: one successful ingestion into an empty store leaves exactly one
record under the returned request id. -/
theorem C1_ingest_exactly_one_witness :
    ((ingest [] cfgMon (mkItem "hi" "h") (mkOracle [] false 0 0) true).1.filter
      (fun r => decide (r.request_id =
        (handle ⟨[], []⟩ cfgMon (mkItem "hi" "h")
          (mkOracle [] false 0 0)).out.request_id))).length = 1 :=
  (C1_ingest_exactly_one [] cfgMon (mkItem "hi" "h") (mkOracle [] false 0 0)
    true (by intro r hr; simp at hr)).1 _ rfl

/-- Witness: with the `llm` filter all-off, a request with a PNG attachment
comes back `allow_unmonitored` with its attachment bytes unchanged. -/
theorem C2_unmonitored_passthrough_witness :
    (handle ⟨[], []⟩ cfgEmptyMap itemWithAtt (mkOracle [] false 0 0)).out.action
        = str "allow_unmonitored" ∧
      ∃ ra, (handle ⟨[], []⟩ cfgEmptyMap itemWithAtt
          (mkOracle [] false 0 0)).out.attachment = some ra ∧
        ra.data = [1, 2, 3] ∧ ra.file_change = false := by
  have h := C2_unmonitored_passthrough ⟨[], []⟩ cfgEmptyMap itemWithAtt
    (mkOracle [] false 0 0) (by decide)
  refine ⟨h.2.2.2.2.2.1, ?_⟩
  exact h.2.2.2.2.2.2 ⟨str "png", [1, 2, 3]⟩ rfl (by decide) (by decide)

/-- Witness: the parser's cleaned entity fields are non-empty on a concrete
generation. -/
theorem C6_parser_nonempty_fields_witness :
    (⟨str "NICKNAME", str "bob", none⟩ : AiSpanned).type_ ≠ [] ∧
      (⟨str "NICKNAME", str "bob", none⟩ : AiSpanned).value ≠ [] :=
  C6_parser_nonempty_fields true
    [some ⟨some (str "NICKNAME"), some (str "bob")⟩] (str "t") false 5
    ⟨str "NICKNAME", str "bob", none⟩ (by decide)

end Sentinel

namespace Sentinel

/-! ## Detector / merger / dedup / rebase lemmas (for C3 and C4) -/

theorem mem_detect_entities {text : Str} {cands : List RawMatch} {e : Ent}
    (h : e ∈ detect_entities text cands) :
    ∃ m ∈ cands, e = ⟨m.label, slice text m.b m.e, m.b, m.e⟩ := by
  unfold detect_entities at h
  by_cases h0 : text = []
  · rw [if_pos h0] at h
    simp at h
  · rw [if_neg h0] at h
    dsimp only at h
    split_ifs at h with h1
    · simp at h
    · rcases selGo_subset _ _ _ _ h with h2 | h2
      · simp at h2
      · rw [sSort_mem] at h2
        obtain ⟨m, hm, hfm⟩ := List.mem_filterMap.mp h2
        refine ⟨m, hm, ?_⟩
        split_ifs at hfm with hc1 hc2
        all_goals simpa using hfm.symm

theorem detect_entities_pairwise (text : Str) (cands : List RawMatch) :
    (detect_entities text cands).Pairwise
      fun a b => overlapB (entSpan a) (entSpan b) = false := by
  unfold detect_entities
  by_cases h0 : text = []
  · rw [if_pos h0]
    exact List.Pairwise.nil
  · rw [if_neg h0]
    dsimp only
    split_ifs with h1
    · exact List.Pairwise.nil
    · exact selGo_pairwise _ _ _ List.Pairwise.nil

theorem mem_merge_raw_and_norm {raw norm : List Ent} {e : Ent}
    (h : e ∈ merge_raw_and_norm_drop_overlap raw norm) : e ∈ raw ∨ e ∈ norm := by
  unfold merge_raw_and_norm_drop_overlap at h
  rcases List.mem_append.mp h with h1 | h1
  · exact Or.inl h1
  · exact Or.inr (List.mem_of_mem_filter h1)

theorem merge_raw_and_norm_pairwise {raw norm : List Ent}
    (hraw : raw.Pairwise fun a b => overlapB (entSpan a) (entSpan b) = false)
    (hne : ∀ x ∈ raw, x.begin_ < x.end_)
    (hnorm : norm.Pairwise fun a b => overlapB (entSpan a) (entSpan b) = false) :
    (merge_raw_and_norm_drop_overlap raw norm).Pairwise
      fun a b => overlapB (entSpan a) (entSpan b) = false := by
  unfold merge_raw_and_norm_drop_overlap
  rw [List.pairwise_append]
  refine ⟨hraw, hnorm.sublist (List.filter_sublist _), ?_⟩
  intro x hx e he
  have hef := List.of_mem_filter he
  simp only [Bool.and_eq_true, Bool.not_eq_true'] at hef
  have hx2 := List.any_eq_false.mp hef.2 x hx
  have hxlt : decide (x.begin_ < x.end_) = true := decide_eq_true (hne x hx)
  rw [overlapB_comm]
  by_cases hov : overlapB (entSpan e) (entSpan x) = true
  · exact absurd (by rw [hxlt, hov]; rfl) hx2
  · exact Bool.eq_false_iff.mpr hov

theorem mem_dedupGo {out extra : List Ent} {e : Ent}
    (h : e ∈ dedupGo out extra) : e ∈ out ∨ e ∈ extra := by
  induction extra generalizing out with
  | nil => exact Or.inl h
  | cons x xs ih =>
    unfold dedupGo at h
    split_ifs at h with hc
    · rcases ih h with h1 | h1
      · exact Or.inl h1
      · exact Or.inr (List.mem_cons_of_mem x h1)
    · rcases ih h with h1 | h1
      · rcases List.mem_append.mp h1 with h2 | h2
        · exact Or.inl h2
        · simp only [List.mem_singleton] at h2
          rw [h2]
          exact Or.inr (List.mem_cons_self x xs)
      · exact Or.inr (List.mem_cons_of_mem x h1)

theorem dedupGo_pairwise {out extra : List Ent}
    (h : out.Pairwise fun a b =>
      a.label = b.label → overlapB (entSpan a) (entSpan b) = false) :
    (dedupGo out extra).Pairwise fun a b =>
      a.label = b.label → overlapB (entSpan a) (entSpan b) = false := by
  induction extra generalizing out with
  | nil => exact h
  | cons x xs ih =>
    unfold dedupGo
    split_ifs with hc
    · exact ih h
    · refine ih ?_
      rw [List.pairwise_append]
      refine ⟨h, List.pairwise_singleton _ _, ?_⟩
      intro a ha b hb
      simp only [List.mem_singleton] at hb
      rw [hb]
      intro hlab
      have hno := List.any_eq_false.mp (Bool.eq_false_iff.mpr hc) a ha
      have hcf : dedupConflict x a = false := Bool.eq_false_iff.mpr hno
      unfold dedupConflict at hcf
      rcases (Bool.or_eq_false_iff).mp hcf with ⟨_, h2⟩
      rw [overlapB_comm]
      rcases (Bool.and_eq_false_iff).mp h2 with h3 | h3
      · exact absurd (decide_eq_true hlab.symm) (by simp [h3])
      · exact h3

theorem mem_rebaseGo {original : Str} {cursor : Nat} {l : List AiEnt} {e : Ent}
    (h : e ∈ rebaseGo original cursor l) :
    slice original e.begin_ e.end_ = e.value ∧ e.value ≠ [] := by
  induction l generalizing cursor with
  | nil => simp [rebaseGo] at h
  | cons a as ih =>
    unfold rebaseGo at h
    dsimp only at h
    split_ifs at h with hskip
    · exact ih h
    · have hval : trim a.value ≠ [] := fun hv => hskip (Or.inr hv)
      rcases hf : findFrom original (trim a.value) cursor with _ | idx
      · rw [hf] at h
        rcases hf0 : findFrom original (trim a.value) 0 with _ | idx0
        · rw [hf0] at h
          exact ih h
        · rw [hf0] at h
          rcases List.mem_cons.mp h with heq | hmem
          · obtain ⟨hocc, _, _, _⟩ := findFrom_some hf0
            rw [heq]
            exact ⟨occAt_slice hocc, hval⟩
          · exact ih hmem
      · rw [hf] at h
        rcases List.mem_cons.mp h with heq | hmem
        · obtain ⟨hocc, _, _, _⟩ := findFrom_some hf
          rw [heq]
          exact ⟨occAt_slice hocc, hval⟩
        · exact ih hmem

end Sentinel

namespace Sentinel

/-! ## C3 / C4: invariants of the accepted entity list -/

/-- Shorthand for the shape of valid regex-oracle match lists: the engine
reports non-empty spans inside the text. -/
def ValidCands (O : Oracles) : Prop :=
  ∀ t : Str, ∀ m ∈ O.regexCands t, m.b < m.e ∧ m.e ≤ t.length

/-- Spec §4.4 contract of the (not-included) number normalizer: it preserves
text length. -/
def LengthPreserving (O : Oracles) : Prop :=
  ∀ s : Str, (O.normalize s).length = s.length

theorem regex_with_norm_pairwise (O : Oracles) (text : Str)
    (hc : ValidCands O) :
    (regex_with_norm O text).Pairwise
      fun a b => overlapB (entSpan a) (entSpan b) = false := by
  unfold regex_with_norm
  refine merge_raw_and_norm_pairwise (detect_entities_pairwise _ _) ?_ ?_
  · intro x hx
    obtain ⟨m, hm, heq⟩ := mem_detect_entities hx
    rw [heq]
    exact (hc text m hm).1
  · rw [List.pairwise_map]
    refine (detect_entities_pairwise _ _).imp ?_
    intro a b hab
    split_ifs <;> simpa [entSpan] using hab

theorem mem_regex_with_norm {O : Oracles} {text : Str} {e : Ent}
    (hc : ValidCands O) (hlen : LengthPreserving O)
    (h : e ∈ regex_with_norm O text) :
    e.begin_ < e.end_ ∧ e.end_ ≤ text.length ∧
      slice text e.begin_ e.end_ = e.value := by
  unfold regex_with_norm at h
  rcases mem_merge_raw_and_norm h with h1 | h1
  · obtain ⟨m, hm, heq⟩ := mem_detect_entities h1
    obtain ⟨hlt, hle⟩ := hc text m hm
    rw [heq]
    exact ⟨hlt, hle, rfl⟩
  · obtain ⟨e0, he0, heq⟩ := List.mem_map.mp h1
    obtain ⟨m, hm, heq0⟩ := mem_detect_entities he0
    obtain ⟨hlt, hle⟩ := hc (O.normalize text) m hm
    have hb : e0.begin_ = m.b := by rw [heq0]
    have he : e0.end_ = m.e := by rw [heq0]
    have hcond : (decide (e0.begin_ < e0.end_) &&
        decide (e0.end_ ≤ text.length)) = true := by
      rw [hb, he]
      simp only [Bool.and_eq_true, decide_eq_true_eq]
      exact ⟨hlt, by rw [← hlen text]; exact hle⟩
    rw [← heq]
    rw [if_pos hcond]
    have hcond' := (Bool.and_eq_true _ _).mp hcond
    exact ⟨by simpa using hcond'.1, by simpa using hcond'.2, rfl⟩

/-- The accepted entity list produced by the monitored branch. -/
theorem monitoredBranch_entities (cfg : Cfg) (O : Oracles) (prompt : Str)
    (ocr_ents : List Ent) (ot : Str) (ou : Bool) (sm : Str) (si : Bool) :
    (monitoredBranch cfg O prompt ocr_ents ot ou sm si).entities
      = dedup_spans (regex_with_norm O prompt)
          (rebase_ai_entities_on_original prompt
            (O.aiEnts (mask_with_parens_by_entities prompt
              (regex_with_norm O prompt)))) := rfl

/-- C3 counterexample: a concrete request whose accepted entity list contains
a regex `EMAIL` on `[0,5)` and an LLM `NAME` on `[3,7)` — two accepted
entities with overlapping half-open ranges. -/
theorem C3_counterexample :
    (handle ⟨[], []⟩ cfgMon (mkItem "abcdefg" "chatgpt.com") oC3).out.entities
        = [⟨str "EMAIL", str "abcde", 0, 5⟩, ⟨str "NAME", str "defg", 3, 7⟩] ∧
      overlapB (0, 5) (3, 7) = true := by
  constructor
  · rfl
  · decide

/-- C3 amended: no two accepted entities with the same label overlap in
`[begin, end)` (and regex-sourced entities never overlap each other at all);
entities with different labels may overlap, since `_dedup_spans` only rejects
same-label overlaps and identical spans. -/
theorem C3_same_label_no_overlap (db : Db) (cfg : Cfg) (item : InItem)
    (O : Oracles) (hc : ValidCands O) :
    (handle db cfg item O).out.entities.Pairwise
      fun a b => a.label = b.label → overlapB (entSpan a) (entSpan b) = false := by
  show (if is_monitored_by_settings cfg
      (if item.interface = [] then str "llm" else item.interface) item.host
      then monitoredBranch cfg O item.prompt _ _ _ _ _
      else _ : BranchOut).entities.Pairwise _
  split_ifs
  all_goals try exact List.Pairwise.nil
  all_goals
    rw [monitoredBranch_entities]
    unfold dedup_spans
    apply dedupGo_pairwise
    refine List.Pairwise.imp ?_ (regex_with_norm_pairwise O item.prompt hc)
    intro a b hab _
    exact hab

theorem oC3_valid : ValidCands oC3 := by
  intro t m hm
  unfold oC3 mkOracle at hm
  dsimp only at hm
  split_ifs at hm with ht
  · simp only [List.mem_singleton] at hm
    subst hm
    refine ⟨by decide, ?_⟩
    rw [ht]
    decide
  · simp at hm

/-- Witness for the C3 amended theorem at a concrete request. -/
theorem C3_same_label_no_overlap_witness :
    (handle ⟨[], []⟩ cfgMon (mkItem "abcdefg" "chatgpt.com") oC3).out.entities.Pairwise
      (fun a b => a.label = b.label → overlapB (entSpan a) (entSpan b) = false) :=
  C3_same_label_no_overlap ⟨[], []⟩ cfgMon (mkItem "abcdefg" "chatgpt.com") oC3
    oC3_valid

/-- C4: for every accepted entity of a request, the slice of the original
prompt at `[begin, end)` equals the entity's `value`. -/
theorem C4_slice_is_value (db : Db) (cfg : Cfg) (item : InItem) (O : Oracles)
    (hc : ValidCands O) (hlen : LengthPreserving O) :
    ∀ e ∈ (handle db cfg item O).out.entities,
      slice item.prompt e.begin_ e.end_ = e.value := by
  intro e he
  revert he
  show e ∈ (if is_monitored_by_settings cfg
      (if item.interface = [] then str "llm" else item.interface) item.host
      then monitoredBranch cfg O item.prompt _ _ _ _ _
      else _ : BranchOut).entities → _
  split_ifs <;>
    first
      | (rw [monitoredBranch_entities]
         intro he
         rcases mem_dedupGo he with h1 | h1
         · exact (mem_regex_with_norm hc hlen h1).2.2
         · exact (mem_rebaseGo h1).1)
      | (intro he
         simp at he)

/-- Witness for C4 at a concrete request and its accepted `NAME` entity. -/
theorem C4_slice_is_value_witness :
    slice (str "abcdefg") 3 7 = str "defg" :=
  C4_slice_is_value ⟨[], []⟩ cfgMon (mkItem "abcdefg" "chatgpt.com") oC3
    oC3_valid (fun s => rfl) ⟨str "NAME", str "defg", 3, 7⟩ (by decide)

end Sentinel

namespace Sentinel

/-! ## C9: the masker's range selection -/

theorem rngAscLe_total : ∀ x y : Rng, rngAscLe x y = true ∨ rngAscLe y x = true := by
  intro x y
  unfold rngAscLe
  rcases Nat.lt_trichotomy x.b y.b with h | h | h
  · left; simp [h]
  · rcases Nat.le_total (y.e - y.b) (x.e - x.b) with h2 | h2
    · left; simp [h]; omega
    · right; simp [h.symm]; omega
  · right; simp [h]

theorem rngAscLe_trans : ∀ x y z : Rng, rngAscLe x y = true →
    rngAscLe y z = true → rngAscLe x z = true := by
  intro x y z hxy hyz
  unfold rngAscLe at *
  simp only [Bool.or_eq_true, Bool.and_eq_true, decide_eq_true_eq] at *
  omega

theorem rngDescLe_total : ∀ x y : Rng, rngDescLe x y = true ∨ rngDescLe y x = true := by
  intro x y
  unfold rngDescLe
  rcases Nat.le_total y.b x.b with h | h
  · left; simpa using h
  · right; simpa using h

theorem rngDescLe_trans : ∀ x y z : Rng, rngDescLe x y = true →
    rngDescLe y z = true → rngDescLe x z = true := by
  intro x y z hxy hyz
  unfold rngDescLe at *
  simp only [decide_eq_true_eq] at *
  omega

theorem merge_and_sort_mem {l : List Rng} {r : Rng}
    (h : r ∈ merge_and_sort l) : r ∈ l := by
  unfold merge_and_sort at h
  split_ifs at h with h0
  · simp at h
  · rw [sSort_mem] at h
    rcases selGo_subset _ _ _ _ h with h1 | h1
    · simp at h1
    · rwa [sSort_mem] at h1

theorem overlap_false_symm :
    Symmetric fun a b : Rng => overlapB (rngSpan a) (rngSpan b) = false := by
  intro a b hab
  rw [overlapB_comm]
  exact hab

theorem merge_and_sort_pairwise (l : List Rng) :
    (merge_and_sort l).Pairwise
      fun a b => overlapB (rngSpan a) (rngSpan b) = false := by
  unfold merge_and_sort
  split_ifs with h0
  · constructor
  · have hsel := selGo_pairwise rngSpan [] (sSort rngAscLe l) List.Pairwise.nil
    have hperm := sSort_perm rngDescLe (selGo rngSpan [] (sSort rngAscLe l))
    exact (hperm.pairwise_iff fun h => overlap_false_symm h).mpr hsel

theorem merge_and_sort_sorted (l : List Rng) :
    (merge_and_sort l).Pairwise fun a b => rngDescLe a b = true := by
  unfold merge_and_sort
  split_ifs with h0
  · constructor
  · exact sSort_pairwise rngDescLe rngDescLe_total rngDescLe_trans _

theorem merge_and_sort_covers {l : List Rng} :
    ∀ r ∈ l, ∃ r' ∈ merge_and_sort l,
      r' = r ∨ (overlapB (rngSpan r) (rngSpan r') = true ∧ rngAscLe r' r = true) := by
  intro r hr
  unfold merge_and_sort
  split_ifs with h0
  · rw [h0] at hr; simp at hr
  · have hsort := sSort_pairwise rngAscLe rngAscLe_total rngAscLe_trans l
    obtain ⟨r', hr', hcase⟩ := selGo_covers rngSpan rngAscLe [] (sSort rngAscLe l)
      (by simp) hsort r ((sSort_mem _ _ _).mpr hr)
    exact ⟨r', (sSort_mem _ _ _).mpr hr', hcase⟩

/-- C9 counterexample: in `"abcde"` with entities A (anchored `[0,3)`, value
absent from the text), B (value `cde`, unanchored) and C (value `de`,
unanchored), the occurrence of C's value at `[3,5)` overlaps no selected
replacement range and is nevertheless not replaced: the claim that every
non-conflicting occurrence of an entity's value is replaced is false. -/
theorem C9_counterexample :
    ¬ ∀ e ∈ entsC9, ∀ p, occAt tC9 e.value p = true →
      ∃ r ∈ prepare_ranges tC9 entsC9,
        overlapB (p, p + e.value.length) (rngSpan r) = true := by
  intro h
  obtain ⟨r, hr, hov⟩ := h ⟨str "C", str "de", 9, 11⟩ (by decide) 3 (by decide)
  have hpr : prepare_ranges tC9 entsC9 = [⟨0, 3, str "A"⟩] := by decide
  rw [hpr] at hr
  simp only [List.mem_singleton] at hr
  rw [hr] at hov
  exact absurd hov (by decide)

/-- C9 amended: masking replaces exactly the ranges selected by
`_prepare_ranges`: the selected ranges are pairwise non-overlapping, come
from the candidate pool (anchored ranges plus the greedily collected value
occurrences), and every candidate is either selected or overlaps an
already-selected range that precedes it in the `(begin asc, length desc)`
order; a value occurrence skipped at collection time (because it touched a
previously collected candidate) can remain unmasked even when it overlaps no
selected range. -/
theorem C9_range_selection (t : Str) (ents : List Ent) :
    (prepare_ranges t ents).Pairwise
        (fun a b => overlapB (rngSpan a) (rngSpan b) = false) ∧
      (∀ r ∈ prepare_ranges t ents, r ∈ prepareCands t ents) ∧
      (∀ r ∈ prepareCands t ents, ∃ r' ∈ prepare_ranges t ents,
        r' = r ∨ (overlapB (rngSpan r) (rngSpan r') = true ∧
          rngAscLe r' r = true)) ∧
      mask_by_entities t ents = apply_ranges t (prepare_ranges t ents) false ∧
      mask_with_parens_by_entities t ents
        = apply_ranges t (prepare_ranges t ents) true := by
  refine ⟨?_, ?_, ?_, ?_, ?_⟩
  · unfold prepare_ranges
    split_ifs with h0
    · constructor
    · exact merge_and_sort_pairwise _
  · unfold prepare_ranges
    split_ifs with h0
    · intro r hr; simp at hr
    · exact fun r hr => merge_and_sort_mem hr
  · unfold prepare_ranges prepareCands
    split_ifs with h0
    · intro r hr; simp at hr
    · exact merge_and_sort_covers
  · unfold mask_by_entities
    by_cases h : prepare_ranges t ents = []
    · rw [h]
      simp [apply_ranges]
    · simp only [h, if_false]
  · unfold mask_with_parens_by_entities
    by_cases h : prepare_ranges t ents = []
    · rw [h]
      simp [apply_ranges]
    · simp only [h, if_false]

/-- Witness for C9 at the concrete scenario: the skipped candidate `[2,5)`
overlaps the selected, earlier-starting `[0,3)`. -/
theorem C9_range_selection_witness :
    ∃ r' ∈ prepare_ranges tC9 entsC9, r' = (⟨2, 5, str "B"⟩ : Rng) ∨
      (overlapB (rngSpan (⟨2, 5, str "B"⟩ : Rng)) (rngSpan r') = true ∧
        rngAscLe r' ⟨2, 5, str "B"⟩ = true) :=
  (C9_range_selection tC9 entsC9).2.2.1 ⟨2, 5, str "B"⟩ (by decide)

end Sentinel

namespace Sentinel

/-! ## Splicing lemmas for `apply_ranges` (towards C7) -/

theorem occAt_take_of_le {s v : Str} {n p : Nat} (h : occAt s v p = true)
    (hle : p + v.length ≤ n) : occAt (s.take n) v p = true := by
  obtain ⟨tl, htl⟩ := occAt_isPrefix h
  refine occAt_of_prefix ?_
  rw [List.drop_take, ← htl, List.take_append_eq_append_take,
    List.take_of_length_le (by omega)]
  exact ⟨tl.take (n - p - v.length), rfl⟩

theorem occAt_take {s v : Str} {n p : Nat} (h : occAt (s.take n) v p = true) :
    occAt s v p = true := by
  refine occAt_of_prefix ((occAt_isPrefix h).trans ?_)
  rw [List.drop_take]
  exact List.take_prefix _ _

theorem occAt_drop_shift {s v : Str} {n q : Nat} :
    occAt (s.drop n) v q = occAt s v (n + q) := by
  unfold occAt
  rw [List.drop_drop, Nat.add_comm]

theorem apply_ranges_append {v : Str} {parens : Bool} :
    ∀ (rs : List Rng) (u : Str),
    (∀ r ∈ rs, r.b < r.e ∧ r.e ≤ u.length) →
    rs.Pairwise (fun a b => b.e ≤ a.b) →
    apply_ranges (u ++ v) rs parens = apply_ranges u rs parens ++ v := by
  intro rs
  induction rs with
  | nil => intro u _ _; rfl
  | cons r rest ih =>
    intro u hvalid hpw
    rcases hpw with _ | ⟨hhead, htail⟩
    obtain ⟨hrb, hre⟩ := hvalid r (List.mem_cons_self _ _)
    show apply_ranges (apply1 parens (u ++ v) r) rest parens
      = apply_ranges (apply1 parens u r) rest parens ++ v
    have hsplit : apply1 parens (u ++ v) r = apply1 parens u r ++ v := by
      unfold apply1
      rw [List.take_append_of_le_length (by omega),
        List.drop_append_of_le_length hre]
      simp [List.append_assoc]
    rw [hsplit]
    refine ih (apply1 parens u r) ?_ htail
    intro r' hr'
    obtain ⟨h1, h2⟩ := hvalid r' (List.mem_cons_of_mem r hr')
    refine ⟨h1, ?_⟩
    have hb : r'.e ≤ r.b := hhead r' hr'
    have : r.b ≤ (apply1 parens u r).length := by
      unfold apply1
      simp only [List.length_append, List.length_take]
      omega
    omega

theorem apply_ranges_cons_split {s : Str} {r : Rng} {rest : List Rng}
    {parens : Bool} (hr : r.b < r.e ∧ r.e ≤ s.length)
    (hrest : ∀ r' ∈ rest, r'.b < r'.e ∧ r'.e ≤ r.b)
    (hpw : rest.Pairwise fun a b => b.e ≤ a.b) :
    apply_ranges s (r :: rest) parens
      = apply_ranges (s.take r.b) rest parens ++ rep parens r ++ s.drop r.e := by
  show apply_ranges (apply1 parens s r) rest parens = _
  have h1 : apply1 parens s r = s.take r.b ++ (rep parens r ++ s.drop r.e) := by
    unfold apply1
    rw [List.append_assoc]
  rw [h1, apply_ranges_append rest (s.take r.b) ?_ hpw, List.append_assoc]
  intro r' hr'
  obtain ⟨ha, hb⟩ := hrest r' hr'
  refine ⟨ha, ?_⟩
  rw [List.length_take]
  omega

theorem alookup_mem {β : Type} {l : List (Str × β)} {k : Str} {v : β}
    (h : alookup l k = some v) : (k, v) ∈ l := by
  induction l with
  | nil => simp [alookup] at h
  | cons p rest ih =>
    obtain ⟨k', v'⟩ := p
    unfold alookup at h
    split_ifs at h with heq
    · rw [heq, Option.some_inj.mp h]
      exact List.mem_cons_self _ _
    · exact List.mem_cons_of_mem _ (ih h)

theorem token_for_ne_nil (label : Str) : token_for label ≠ [] := by
  unfold token_for
  dsimp only
  rcases hl : alookup TOKEN (upper label) with _ | t
  · dsimp only
    split_ifs with h0
    · decide
    · exact h0
  · dsimp only
    have hmem := alookup_mem hl
    have hall : ∀ p ∈ TOKEN, p.2 ≠ ([] : Str) := by decide
    exact hall _ hmem

theorem rep_ne_nil {parens : Bool} {r : Rng} (h : r.tok ≠ []) :
    rep parens r ≠ [] := by
  unfold rep
  split_ifs with hp
  · simp [str]
  · exact h

theorem tok_infix_rep (parens : Bool) (r : Rng) :
    List.IsInfix r.tok (rep parens r) := by
  unfold rep
  split_ifs with hp
  · exact ⟨str "(", str ")", rfl⟩
  · exact ⟨[], [], by simp⟩

end Sentinel

namespace Sentinel

/-! ## Infix splitting across a replacement (towards C7) -/

theorem infix_append_split {A t B v : Str} (hv : v ≠ []) (ht : t ≠ [])
    (hdisj : ∀ c ∈ v, c ∉ t) (h : List.IsInfix v (A ++ t ++ B)) :
    List.IsInfix v A ∨ List.IsInfix v B := by
  obtain ⟨l, r, hlr⟩ := h
  have hocc0 : occAt (A ++ t ++ B) v l.length = true := by
    apply occAt_of_prefix
    rw [← hlr, List.append_assoc, List.drop_left]
    exact ⟨r, rfl⟩
  by_cases h1 : l.length + v.length ≤ A.length
  · left
    have h2 := occAt_take_of_le hocc0 h1
    rw [List.append_assoc, List.take_left] at h2
    exact (infix_iff_exists_occAt v A).mpr ⟨l.length, h2⟩
  by_cases h2 : A.length + t.length ≤ l.length
  · right
    have hshift := @occAt_drop_shift (A ++ t ++ B) v (A.length + t.length)
      (l.length - (A.length + t.length))
    have hd : (A ++ t ++ B).drop (A.length + t.length) = B := by
      have hlen2 : A.length + t.length = (A ++ t).length := by simp
      rw [hlen2, List.drop_left]
    rw [hd] at hshift
    have harith : A.length + t.length + (l.length - (A.length + t.length))
        = l.length := by omega
    rw [harith] at hshift
    refine (infix_iff_exists_occAt v B).mpr
      ⟨l.length - (A.length + t.length), ?_⟩
    rw [hshift]
    exact hocc0
  · exfalso
    push_neg at h1 h2
    have hvpos : 0 < v.length := List.length_pos.mpr hv
    have htpos : 0 < t.length := List.length_pos.mpr ht
    have hLlen : (l ++ v ++ r).length = (A ++ t ++ B).length := by rw [hlr]
    by_cases hl : A.length ≤ l.length
    · have hiL : l.length < (l ++ v ++ r).length := by
        simp only [List.length_append]
        omega
      have e1 : (l ++ v ++ r)[l.length] = v[0] := by
        have h3 : l.length < (l ++ v).length := by
          simp only [List.length_append]
          omega
        rw [List.getElem_append_left h3,
          List.getElem_append_right (Nat.le_refl l.length)]
        congr 1
        omega
      have hiR : l.length < (A ++ t ++ B).length := by
        rw [← hLlen]
        exact hiL
      have hjt : l.length - A.length < t.length := by omega
      have e2 : (A ++ t ++ B)[l.length] = t[l.length - A.length] := by
        have h3 : l.length < (A ++ t).length := by
          simp only [List.length_append]
          omega
        rw [List.getElem_append_left h3, List.getElem_append_right hl]
      have e3 : v[0] = t[l.length - A.length] := by
        rw [← e1, ← e2]
        exact List.getElem_of_eq hlr hiL
      refine hdisj v[0] (List.getElem_mem hvpos) ?_
      rw [e3]
      exact List.getElem_mem hjt
    · push_neg at hl
      have hiL : A.length < (l ++ v ++ r).length := by
        rw [hLlen]
        simp only [List.length_append]
        omega
      have hjv : A.length - l.length < v.length := by omega
      have e1 : (l ++ v ++ r)[A.length] = v[A.length - l.length] := by
        have h3 : A.length < (l ++ v).length := by
          simp only [List.length_append]
          omega
        rw [List.getElem_append_left h3,
          List.getElem_append_right (Nat.le_of_lt hl)]
      have hiR : A.length < (A ++ t ++ B).length := by
        simp only [List.length_append]
        omega
      have e2 : (A ++ t ++ B)[A.length] = t[0] := by
        have h3 : A.length < (A ++ t).length := by
          simp only [List.length_append]
          omega
        rw [List.getElem_append_left h3,
          List.getElem_append_right (Nat.le_refl A.length)]
        congr 1
        omega
      have e3 : v[A.length - l.length] = t[0] := by
        rw [← e1, ← e2]
        exact List.getElem_of_eq hlr hiL
      refine hdisj (v[A.length - l.length]) (List.getElem_mem hjv) ?_
      rw [e3]
      exact List.getElem_mem htpos

end Sentinel

namespace Sentinel

/-! ## Tokens survive masking; anchored-only values do not (towards C7) -/

theorem token_infix {parens : Bool} :
    ∀ (rs : List Rng) (s : Str),
    (∀ r ∈ rs, r.b < r.e ∧ r.e ≤ s.length) →
    rs.Pairwise (fun a b => b.e ≤ a.b) →
    ∀ r ∈ rs, List.IsInfix r.tok (apply_ranges s rs parens) := by
  intro rs
  induction rs with
  | nil => intro s _ _ r hr; simp at hr
  | cons c cs ih =>
    intro s hvalid hpw r hr
    rcases hpw with _ | ⟨hc, hcs⟩
    have hcv := hvalid c (List.mem_cons_self _ _)
    have hrest : ∀ r' ∈ cs, r'.b < r'.e ∧ r'.e ≤ c.b := by
      intro r' hr'
      exact ⟨(hvalid r' (List.mem_cons_of_mem c hr')).1, hc r' hr'⟩
    rw [apply_ranges_cons_split hcv hrest hcs]
    rcases List.mem_cons.mp hr with heq | hmem
    · rw [heq]
      refine (tok_infix_rep parens c).trans ?_
      exact ⟨apply_ranges (s.take c.b) cs parens, s.drop c.e, rfl⟩
    · have hvalid' : ∀ r' ∈ cs, r'.b < r'.e ∧ r'.e ≤ (s.take c.b).length := by
        intro r' hr'
        obtain ⟨hx, hy⟩ := hrest r' hr'
        refine ⟨hx, ?_⟩
        rw [List.length_take]
        have := hcv.2
        omega
      have hin := ih (s.take c.b) hvalid' hcs r hmem
      refine hin.trans ⟨[], rep parens c ++ s.drop c.e, ?_⟩
      simp [List.append_assoc]

end Sentinel

namespace Sentinel

theorem value_not_infix {parens : Bool} {v : Str} (hv : v ≠ []) :
    ∀ (rs : List Rng) (s : Str),
    (∀ r ∈ rs, r.b < r.e ∧ r.e ≤ s.length) →
    rs.Pairwise (fun a b => b.e ≤ a.b) →
    (∀ p, occAt s v p = true → ∃ r ∈ rs, p = r.b ∧ p + v.length = r.e) →
    (∀ r ∈ rs, r.tok ≠ []) →
    (∀ r ∈ rs, ∀ ch ∈ v, ch ∉ rep parens r) →
    ¬ List.IsInfix v (apply_ranges s rs parens) := by
  intro rs
  induction rs with
  | nil =>
    intro s _ _ hocc _ _ hinf
    obtain ⟨p, hp⟩ := (infix_iff_exists_occAt v _).mp hinf
    obtain ⟨r, hr, _⟩ := hocc p hp
    simp at hr
  | cons c cs ih =>
    intro s hvalid hpw hocc htok hchar hinf
    rcases hpw with _ | ⟨hc, hcs⟩
    have hcv := hvalid c (List.mem_cons_self _ _)
    have hrest : ∀ r' ∈ cs, r'.b < r'.e ∧ r'.e ≤ c.b := fun r' hr' =>
      ⟨(hvalid r' (List.mem_cons_of_mem c hr')).1, hc r' hr'⟩
    rw [apply_ranges_cons_split hcv hrest hcs] at hinf
    have hrepne : rep parens c ≠ [] :=
      rep_ne_nil (htok c (List.mem_cons_self _ _))
    rcases infix_append_split hv hrepne (hchar c (List.mem_cons_self _ _)) hinf
      with hA | hB
    · refine ih (s.take c.b) ?_ hcs ?_ ?_ ?_ hA
      · intro r' hr'
        obtain ⟨hx, hy⟩ := hrest r' hr'
        refine ⟨hx, ?_⟩
        rw [List.length_take]
        have h1 := hcv.1
        have h2 := hcv.2
        omega
      · intro p hp
        have hps : occAt s v p = true := occAt_take hp
        obtain ⟨r, hr, hpb, hpe⟩ := hocc p hps
        have hlen : p + v.length ≤ (s.take c.b).length :=
          occAt_add_length_le hv hp
        rw [List.length_take] at hlen
        rcases List.mem_cons.mp hr with heq | hmem
        · exfalso
          rw [heq] at hpe
          have := hcv.1
          omega
        · exact ⟨r, hmem, hpb, hpe⟩
      · exact fun r hr => htok r (List.mem_cons_of_mem c hr)
      · exact fun r hr => hchar r (List.mem_cons_of_mem c hr)
    · obtain ⟨q, hq⟩ := (infix_iff_exists_occAt v _).mp hB
      have hqs : occAt s v (c.e + q) = true := by
        rw [← occAt_drop_shift]
        exact hq
      obtain ⟨r, hr, hpb, hpe⟩ := hocc (c.e + q) hqs
      rcases List.mem_cons.mp hr with heq | hmem
      · rw [heq] at hpb
        have := hcv.1
        omega
      · have h1 := hc r hmem
        have h2 := (hvalid r (List.mem_cons_of_mem c hmem)).1
        have h3 := hcv.1
        omega

end Sentinel

namespace Sentinel

/-! ## Characterising the selected ranges in the anchored setting (C7) -/

theorem mask_by_entities_eq_apply (t : Str) (ents : List Ent) :
    mask_by_entities t ents = apply_ranges t (prepare_ranges t ents) false := by
  unfold mask_by_entities
  by_cases h : prepare_ranges t ents = []
  · rw [h]
    simp [apply_ranges]
  · simp only [h, if_false]

theorem collect_offset_eq_map {orig : Str} {ents : List Ent}
    (h : ∀ e ∈ ents, e.begin_ < e.end_ ∧ e.end_ ≤ orig.length) :
    collect_ranges_by_offset orig ents
      = ents.map fun e => ⟨e.begin_, e.end_, token_for (norm_label e)⟩ := by
  induction ents with
  | nil => rfl
  | cons e es ih =>
    obtain ⟨h1, h2⟩ := h e (List.mem_cons_self _ _)
    unfold collect_ranges_by_offset
    rw [List.filterMap_cons]
    rw [if_pos (by simp [h1, h2])]
    dsimp only
    rw [List.map_cons]
    congr 1
    exact ih fun x hx => h x (List.mem_cons_of_mem e hx)

theorem mem_occsGo {s v : Str} {c fuel : Nat} {p q : Nat}
    (h : (p, q) ∈ occsGo s v c fuel) :
    occAt s v p = true ∧ q = p + v.length := by
  induction fuel generalizing c with
  | zero => simp [occsGo] at h
  | succ fuel ih =>
    unfold occsGo at h
    rcases hf : findFrom s v c with _ | i
    · rw [hf] at h
      simp at h
    · rw [hf] at h
      rcases List.mem_cons.mp h with heq | hmem
      · obtain ⟨hocc, _, _, _⟩ := findFrom_some hf
        obtain ⟨hp, hq⟩ := Prod.mk.injEq .. ▸ heq
        exact ⟨by rw [hp]; exact hocc, by rw [hp, hq]⟩
      · exact ih hmem

theorem mem_occurrences {s v : Str} {p q : Nat}
    (h : (p, q) ∈ occurrences s v) :
    occAt s v p = true ∧ q = p + v.length := by
  unfold occurrences at h
  split_ifs at h with h0
  · simp at h
  · exact mem_occsGo h

theorem mem_takeOcc {tok : Str} {taken : List Bool} {occs : List (Nat × Nat)}
    {r : Rng} (h : r ∈ (takeOcc tok taken occs).2) :
    (r.b, r.e) ∈ occs ∧ r.tok = tok := by
  induction occs generalizing taken with
  | nil => simp [takeOcc] at h
  | cons o os ih =>
    obtain ⟨b, e⟩ := o
    unfold takeOcc at h
    split_ifs at h with hskip
    · obtain ⟨h1, h2⟩ := ih h
      exact ⟨List.mem_cons_of_mem _ h1, h2⟩
    · dsimp only at h
      rcases List.mem_cons.mp h with heq | hmem
      · rw [heq]
        exact ⟨List.mem_cons_self _ _, rfl⟩
      · obtain ⟨h1, h2⟩ := ih hmem
        exact ⟨List.mem_cons_of_mem _ h1, h2⟩

theorem collect_value_subset {orig : Str} {ents : List Ent}
    (hanch : ∀ e ∈ ents, e.value.length = e.end_ - e.begin_)
    (huniq : ∀ e ∈ ents, ∀ p, occAt orig e.value p = true → p = e.begin_) :
    ∀ r ∈ collect_ranges_by_value orig ents,
      ∃ e ∈ ents, r = ⟨e.begin_, e.end_, token_for (norm_label e)⟩ := by
  unfold collect_ranges_by_value
  generalize List.replicate (orig.length + 1) false = taken
  induction ents generalizing taken with
  | nil => intro r hr; simp [cvGo] at hr
  | cons e es ih =>
    intro r hr
    unfold cvGo at hr
    split_ifs at hr with hval
    · obtain ⟨e', he', heq⟩ := ih
        (fun x hx => hanch x (List.mem_cons_of_mem e hx))
        (fun x hx => huniq x (List.mem_cons_of_mem e hx)) taken r hr
      exact ⟨e', List.mem_cons_of_mem e he', heq⟩
    · rcases List.mem_append.mp hr with hm | hm
      · obtain ⟨ho, htk⟩ := mem_takeOcc hm
        obtain ⟨hocc, hq⟩ := mem_occurrences ho
        have hpb := huniq e (List.mem_cons_self _ _) r.b hocc
        have hlen := hanch e (List.mem_cons_self _ _)
        have hvpos : 0 < e.value.length := by
          cases hvv : e.value with
          | nil => exact absurd hvv hval
          | cons a as => simp [hvv]
        refine ⟨e, List.mem_cons_self _ _, ?_⟩
        have hre : r.e = e.end_ := by omega
        cases r with
        | mk rb re rtok =>
          simp only at hpb hre htk
          rw [hpb, hre, htk]
      · obtain ⟨e', he', heq⟩ := ih
          (fun x hx => hanch x (List.mem_cons_of_mem e hx))
          (fun x hx => huniq x (List.mem_cons_of_mem e hx)) _ r hm
        exact ⟨e', List.mem_cons_of_mem e he', heq⟩

end Sentinel

namespace Sentinel

theorem overlapB_false_iff {a b : Nat × Nat} :
    overlapB a b = false ↔ (a.2 ≤ b.1 ∨ b.2 ≤ a.1) := by
  unfold overlapB
  simp only [Bool.not_eq_false', Bool.or_eq_true, decide_eq_true_eq]

theorem entOverlap_false_symm :
    Symmetric fun a b : Ent => overlapB (entSpan a) (entSpan b) = false := by
  intro a b hab
  rw [overlapB_comm]
  exact hab

theorem cands_anchor_sub {orig : Str} {ents : List Ent}
    (hvalid : ∀ e ∈ ents, e.begin_ < e.end_ ∧ e.end_ ≤ orig.length)
    (hanch : ∀ e ∈ ents, e.value.length = e.end_ - e.begin_)
    (huniq : ∀ e ∈ ents, ∀ p, occAt orig e.value p = true → p = e.begin_) :
    ∀ r ∈ prepareCands orig ents,
      ∃ e ∈ ents, r = ⟨e.begin_, e.end_, token_for (norm_label e)⟩ := by
  intro r hr
  unfold prepareCands at hr
  split_ifs at hr with h0
  · simp at hr
  · dsimp only at hr
    split_ifs at hr with hoe
    · exact collect_value_subset hanch huniq r hr
    · rcases List.mem_append.mp hr with hm | hm
      · rw [collect_offset_eq_map hvalid] at hm
        obtain ⟨e, he, heq⟩ := List.mem_map.mp hm
        exact ⟨e, he, heq.symm⟩
      · exact collect_value_subset hanch huniq r hm

theorem prepared_anchor_sub {orig : Str} {ents : List Ent}
    (hvalid : ∀ e ∈ ents, e.begin_ < e.end_ ∧ e.end_ ≤ orig.length)
    (hanch : ∀ e ∈ ents, e.value.length = e.end_ - e.begin_)
    (huniq : ∀ e ∈ ents, ∀ p, occAt orig e.value p = true → p = e.begin_) :
    ∀ r ∈ prepare_ranges orig ents,
      ∃ e ∈ ents, r = ⟨e.begin_, e.end_, token_for (norm_label e)⟩ := by
  intro r hr
  unfold prepare_ranges at hr
  split_ifs at hr with h0
  · simp at hr
  · exact cands_anchor_sub hvalid hanch huniq r (merge_and_sort_mem hr)

theorem anchors_mem_prepared {orig : Str} {ents : List Ent}
    (hvalid : ∀ e ∈ ents, e.begin_ < e.end_ ∧ e.end_ ≤ orig.length)
    (hanch : ∀ e ∈ ents, e.value.length = e.end_ - e.begin_)
    (huniq : ∀ e ∈ ents, ∀ p, occAt orig e.value p = true → p = e.begin_)
    (hdisj : ents.Pairwise fun a b => overlapB (entSpan a) (entSpan b) = false)
    (hne : ents ≠ []) (horig : orig ≠ []) :
    ∀ e ∈ ents,
      (⟨e.begin_, e.end_, token_for (norm_label e)⟩ : Rng)
        ∈ prepare_ranges orig ents := by
  intro e he
  have hguard : ¬(orig = [] ∨ ents = []) := by simp [horig, hne]
  have hcand : (⟨e.begin_, e.end_, token_for (norm_label e)⟩ : Rng)
      ∈ prepareCands orig ents := by
    unfold prepareCands
    rw [if_neg hguard]
    dsimp only
    have hoff := collect_offset_eq_map hvalid
    split_ifs with hoe
    · exfalso
      rw [hoff] at hoe
      cases ents with
      | nil => exact hne rfl
      | cons x xs => simp at hoe
    · rw [hoff]
      exact List.mem_append_left _ (List.mem_map_of_mem _ he)
  have hpr : prepare_ranges orig ents = merge_and_sort (prepareCands orig ents) := by
    unfold prepare_ranges
    rw [if_neg hguard]
  rw [hpr]
  obtain ⟨r', hr', hcase⟩ := merge_and_sort_covers _ hcand
  obtain ⟨e', he', heq'⟩ := cands_anchor_sub hvalid hanch huniq r'
    (merge_and_sort_mem hr')
  rcases hcase with heq | ⟨hov, _⟩
  · rw [← heq]
    exact hr'
  · by_cases hee : e = e'
    · have : r' = ⟨e.begin_, e.end_, token_for (norm_label e)⟩ := by
        rw [heq', hee]
      rw [← this]
      exact hr'
    · exfalso
      have hrel := hdisj.forall entOverlap_false_symm he he' hee
      rw [heq'] at hov
      simp only [rngSpan] at hov
      simp only [entSpan] at hrel
      rw [hrel] at hov
      cases hov

theorem merge_and_sort_ordered {l : List Rng}
    (hval : ∀ r ∈ merge_and_sort l, r.b < r.e) :
    (merge_and_sort l).Pairwise fun a b => b.e ≤ a.b := by
  refine List.Pairwise.imp_of_mem ?_
    ((merge_and_sort_sorted l).and (merge_and_sort_pairwise l))
  intro a b ha hb hab
  obtain ⟨h1, h2⟩ := hab
  have ha' := hval a ha
  have hb' := hval b hb
  rw [overlapB_false_iff] at h2
  unfold rngDescLe at h1
  simp only [decide_eq_true_eq] at h1
  simp only [rngSpan] at h2
  omega

theorem mask_anchor_properties {orig : Str} {ents : List Ent}
    (hne : ents ≠ [])
    (hvalid : ∀ e ∈ ents, e.begin_ < e.end_ ∧ e.end_ ≤ orig.length)
    (hanch : ∀ e ∈ ents, e.value.length = e.end_ - e.begin_)
    (huniq : ∀ e ∈ ents, ∀ p, occAt orig e.value p = true → p = e.begin_)
    (hdisj : ents.Pairwise fun a b => overlapB (entSpan a) (entSpan b) = false)
    (hchar : ∀ e ∈ ents, ∀ e' ∈ ents, ∀ ch ∈ e.value,
      ch ∉ token_for (norm_label e')) :
    (∀ e ∈ ents,
      List.IsInfix (token_for (norm_label e)) (mask_by_entities orig ents)) ∧
    (∀ e ∈ ents, ¬ List.IsInfix e.value (mask_by_entities orig ents)) := by
  have horig : orig ≠ [] := by
    obtain ⟨e0, he0⟩ := List.exists_mem_of_ne_nil ents hne
    obtain ⟨h1, h2⟩ := hvalid e0 he0
    intro h
    rw [h] at h2
    simp at h2
    omega
  have hguard : ¬(orig = [] ∨ ents = []) := by simp [horig, hne]
  have hpr : prepare_ranges orig ents = merge_and_sort (prepareCands orig ents) := by
    unfold prepare_ranges
    rw [if_neg hguard]
  have hsub := prepared_anchor_sub hvalid hanch huniq
  have hmem := anchors_mem_prepared hvalid hanch huniq hdisj hne horig
  have hvalR : ∀ r ∈ prepare_ranges orig ents, r.b < r.e ∧ r.e ≤ orig.length := by
    intro r hr
    obtain ⟨e, he, heq⟩ := hsub r hr
    rw [heq]
    exact hvalid e he
  have hord : (prepare_ranges orig ents).Pairwise fun a b => b.e ≤ a.b := by
    rw [hpr]
    refine merge_and_sort_ordered ?_
    intro r hr
    exact (hvalR r (by rw [hpr]; exact hr)).1
  rw [mask_by_entities_eq_apply]
  constructor
  · intro e he
    exact token_infix (prepare_ranges orig ents) orig hvalR hord _ (hmem e he)
  · intro e he
    have hv : e.value ≠ [] := by
      have h1 := hanch e he
      obtain ⟨h2, h3⟩ := hvalid e he
      intro hnil
      rw [hnil] at h1
      simp at h1
      omega
    refine value_not_infix hv (prepare_ranges orig ents) orig hvalR hord ?_ ?_ ?_
    · intro p hp
      have hpb := huniq e he p hp
      refine ⟨⟨e.begin_, e.end_, token_for (norm_label e)⟩, hmem e he, hpb, ?_⟩
      have h1 := hanch e he
      obtain ⟨h2, h3⟩ := hvalid e he
      dsimp only
      omega
    · intro r hr
      obtain ⟨e', he', heq⟩ := hsub r hr
      rw [heq]
      exact token_for_ne_nil _
    · intro r hr ch hch
      obtain ⟨e', he', heq⟩ := hsub r hr
      rw [heq]
      show ch ∉ rep false _
      unfold rep
      rw [if_neg (by simp)]
      exact hchar e he e' he' ch hch

end Sentinel

namespace Sentinel

theorem isSubstrOf_true_iff {v s : Str} (hv : v ≠ []) :
    isSubstrOf v s = true ↔ List.IsInfix v s := by
  unfold isSubstrOf
  constructor
  · intro h
    rw [Option.isSome_iff_exists] at h
    obtain ⟨j, hj⟩ := h
    exact (infix_iff_exists_occAt v s).mpr ⟨j, (findFrom_some hj).1⟩
  · intro h
    obtain ⟨p, hp⟩ := (infix_iff_exists_occAt v s).mp h
    cases hf : findFrom s v 0 with
    | none =>
      have hfalse := findFrom_none hv hf p (Nat.zero_le p)
      rw [hp] at hfalse
      cases hfalse
    | some j => rfl

theorem monitoredBranch_mask_prompt (cfg : Cfg) (O : Oracles) (pt : Str)
    (reo : List Ent) (ot : Str) (ou : Bool) (sm : Str) (ss : Bool)
    (hb : effective_response_method cfg ≠ str "block")
    (ha : effective_response_method cfg ≠ str "allow")
    (hne : (monitoredBranch cfg O pt reo ot ou sm ss).entities ≠ []) :
    (monitoredBranch cfg O pt reo ot ou sm ss).final_modified_prompt
      = mask_by_entities pt (monitoredBranch cfg O pt reo ot ou sm ss).entities := by
  rw [monitoredBranch_entities] at hne ⊢
  revert hne
  unfold monitoredBranch
  dsimp only
  generalize dedup_spans (regex_with_norm O pt)
    (rebase_ai_entities_on_original pt
      (O.aiEnts (mask_with_parens_by_entities pt (regex_with_norm O pt)))) = E
  intro hne
  have hF : E.isEmpty = false := by
    cases E with
    | nil => exact absurd rfl hne
    | cons a l => rfl
  have hS : (!E.isEmpty || !reo.isEmpty ||
      O.aiHas (mask_with_parens_by_entities pt (regex_with_norm O pt))) = true := by
    rw [hF]
    rfl
  rw [if_pos hS, if_neg hb, if_neg ha]
  split_ifs with h1 <;> rfl

theorem handle_out_mask (db : Db) (cfg : Cfg) (item : InItem) (O : Oracles)
    (hmon : is_monitored_by_settings cfg
      (if item.interface = [] then str "llm" else item.interface) item.host = true)
    (hb : effective_response_method cfg ≠ str "block")
    (ha : effective_response_method cfg ≠ str "allow")
    (hne : (handle db cfg item O).out.entities ≠ []) :
    (handle db cfg item O).out.modified_prompt
      = mask_by_entities item.prompt (handle db cfg item O).out.entities := by
  unfold handle at hne ⊢
  dsimp only at hne ⊢
  simp only [hmon, if_pos, Bool.true_and] at hne ⊢
  exact monitoredBranch_mask_prompt _ _ _ _ _ _ _ _ hb ha hne

end Sentinel

namespace Sentinel

/-- C7 counterexample: a monitored masked request whose single accepted
entity has label `NAME` and value `"NAME"` — the value equals its own
replacement token, so the masked `modified_prompt` is `"NAME"` and still
contains the entity's value as a substring, contradicting the claim that
the masked prompt contains no substring equal to any accepted entity's
value. -/
theorem C7_counterexample :
    (handle ⟨[], []⟩ cfgMon (mkItem "NAME" "chatgpt.com")
        (mkOracle [⟨str "NAME", str "NAME"⟩] true 5 7)).out.entities
      = [⟨str "NAME", str "NAME", 0, 4⟩] ∧
    (handle ⟨[], []⟩ cfgMon (mkItem "NAME" "chatgpt.com")
        (mkOracle [⟨str "NAME", str "NAME"⟩] true 5 7)).out.action
      = str "mask_and_allow" ∧
    (handle ⟨[], []⟩ cfgMon (mkItem "NAME" "chatgpt.com")
        (mkOracle [⟨str "NAME", str "NAME"⟩] true 5 7)).out.modified_prompt
      = str "NAME" ∧
    isSubstrOf (str "NAME")
      ((handle ⟨[], []⟩ cfgMon (mkItem "NAME" "chatgpt.com")
        (mkOracle [⟨str "NAME", str "NAME"⟩] true 5 7)).out.modified_prompt)
      = true := by
  decide

/-- C7 (amended): for a monitored request whose effective response method is
neither `block` nor `allow` (so the masking branch runs) and whose accepted
entity list is non-empty, *provided* the accepted entities have valid
anchored spans (`value` has the span's length, every occurrence of a value
in the prompt is at its own anchor, spans are pairwise non-overlapping) and
no value shares a character with any entity's replacement token, the
returned `modified_prompt` contains every entity's replacement token and
contains no entity's value as a substring. Without the no-shared-character
proviso the claim is false (see the counterexample: a value equal to its
own token survives masking). -/
theorem C7_mask_token_and_value (db : Db) (cfg : Cfg) (item : InItem)
    (O : Oracles)
    (hmon : is_monitored_by_settings cfg
      (if item.interface = [] then str "llm" else item.interface) item.host
      = true)
    (hb : effective_response_method cfg ≠ str "block")
    (ha : effective_response_method cfg ≠ str "allow")
    (hne : (handle db cfg item O).out.entities ≠ [])
    (hvalid : ∀ e ∈ (handle db cfg item O).out.entities,
      e.begin_ < e.end_ ∧ e.end_ ≤ item.prompt.length)
    (hanch : ∀ e ∈ (handle db cfg item O).out.entities,
      e.value.length = e.end_ - e.begin_)
    (huniq : ∀ e ∈ (handle db cfg item O).out.entities,
      ∀ p, p < item.prompt.length → occAt item.prompt e.value p = true →
        p = e.begin_)
    (hdisj : (handle db cfg item O).out.entities.Pairwise
      fun a b => overlapB (entSpan a) (entSpan b) = false)
    (hchar : ∀ e ∈ (handle db cfg item O).out.entities,
      ∀ e' ∈ (handle db cfg item O).out.entities,
      ∀ ch ∈ e.value, ch ∉ token_for (norm_label e')) :
    ∀ e ∈ (handle db cfg item O).out.entities,
      isSubstrOf (token_for (norm_label e))
        ((handle db cfg item O).out.modified_prompt) = true ∧
      isSubstrOf e.value ((handle db cfg item O).out.modified_prompt)
        = false := by
  have hmp := handle_out_mask db cfg item O hmon hb ha hne
  have hvne : ∀ e ∈ (handle db cfg item O).out.entities, e.value ≠ [] := by
    intro e he hnil
    have h1 := hanch e he
    obtain ⟨h2, h3⟩ := hvalid e he
    rw [hnil] at h1
    simp at h1
    omega
  have huniq' : ∀ e ∈ (handle db cfg item O).out.entities,
      ∀ p, occAt item.prompt e.value p = true → p = e.begin_ := by
    intro e he p hp
    have hle := occAt_add_length_le (hvne e he) hp
    have hvpos : 0 < e.value.length := List.length_pos.mpr (hvne e he)
    exact huniq e he p (by omega) hp
  have hmain := mask_anchor_properties hne hvalid hanch huniq' hdisj hchar
  intro e he
  refine ⟨?_, ?_⟩
  · rw [hmp]
    exact (isSubstrOf_true_iff (token_for_ne_nil _)).mpr (hmain.1 e he)
  · rw [hmp]
    cases hI : isSubstrOf e.value
        (mask_by_entities item.prompt (handle db cfg item O).out.entities) with
    | false => rfl
    | true =>
      exact absurd ((isSubstrOf_true_iff (hvne e he)).mp hI) (hmain.2 e he)

/-- Witness for C7: the prompt `"pin 1234 ok"` with a single LLM entity
`PAYMENT_PIN`/`"1234"` anchored at `[4, 8)` satisfies every hypothesis, and
the masked prompt `"pin PAYMENT_PIN ok"` contains the token but not the
value. -/
theorem C7_mask_token_and_value_witness :
    isSubstrOf (token_for (norm_label ⟨str "PAYMENT_PIN", str "1234", 4, 8⟩))
      ((handle ⟨[], []⟩ cfgMon (mkItem "pin 1234 ok" "chatgpt.com")
        (mkOracle [⟨str "PAYMENT_PIN", str "1234"⟩] true 5 7)).out.modified_prompt)
      = true ∧
    isSubstrOf (str "1234")
      ((handle ⟨[], []⟩ cfgMon (mkItem "pin 1234 ok" "chatgpt.com")
        (mkOracle [⟨str "PAYMENT_PIN", str "1234"⟩] true 5 7)).out.modified_prompt)
      = false :=
  C7_mask_token_and_value ⟨[], []⟩ cfgMon (mkItem "pin 1234 ok" "chatgpt.com")
    (mkOracle [⟨str "PAYMENT_PIN", str "1234"⟩] true 5 7)
    (by decide) (by decide) (by decide) (by decide) (by decide) (by decide)
    (by decide) (by decide) (by decide)
    ⟨str "PAYMENT_PIN", str "1234", 4, 8⟩ (by decide)

end Sentinel
